import Mathlib

/-!
Verification of the bookbaker translation pipeline.

Shallow embedding of the parts of the `bookbaker` repository that the
specification's claims refer to:

* `src/bookbaker/utils.py` — the text codec (`escape_keychars`,
  `escape_ruby`, `escape_repetition` and their inverses), including an
  executable model of the Python regular expressions involved;
* `src/bookbaker/classes.py` — the `Line`/`Episode` data model,
  `Episode.fully_translated` and `Episode.html`;
* `src/bookbaker/roles/gpt.py` and `src/bookbaker/roles/gemini.py` — the
  translation engine: metadata caching, line batching, response
  validation, and the retry/rollback loop;
* `src/bookbaker/roles/syosetu_com.py` — the staleness check of
  `crawl_stream`.

Python strings are modelled as `List Char`; machine-independent data
(datetimes) as `Int` UTC instants.  All scanning functions are written
with explicit fuel so that they are structurally recursive and evaluate
inside the kernel; wrappers supply fuel that is provably sufficient
(every step of a scanner consumes at least one character).
-/

namespace BookBaker

/-- Python strings modelled as lists of characters. -/
abbrev Str := List Char

/-- Coerce a Lean string literal to the model's string type. -/
def str (s : String) : Str := s.data

/-- Characters that Python's `str.strip()` removes (ASCII whitespace and
the ideographic space, the cases relevant to this code base). -/
def isPySpace (c : Char) : Bool :=
  c = ' ' ∨ c = '\t' ∨ c = '\n' ∨ c = '\r' ∨ c = '\x0b' ∨ c = '\x0c' ∨ c = '　'

/-- `not s.strip()` in Python: the string contains only whitespace. -/
def isBlank (s : Str) : Bool := s.all isPySpace

/-- `pat` is a prefix of `s` (decidable matcher used by the scanners). -/
def strStarts : Str → Str → Bool
  | [], _ => true
  | _ :: _, [] => false
  | p :: ps, c :: cs => p = c && strStarts ps cs

/-- Fuel-driven core of Python's `str.replace`: replace every
non-overlapping occurrence of `old` in `s` by `new`, scanning left to
right and skipping past each replacement. -/
def replaceGo : Nat → Str → Str → Str → Str
  | 0, _, _, s => s
  | f + 1, old, new, s =>
    match s with
    | [] => []
    | c :: cs =>
      if strStarts old s then new ++ replaceGo f old new (s.drop old.length)
      else c :: replaceGo f old new cs

/-- Python's `s.replace(old, new)` (for the non-empty `old` used by this
code base; each scan step consumes at least one character, so
`s.length + 1` fuel suffices). -/
def replaceAll (s old new : Str) : Str :=
  if old = [] then s else replaceGo (s.length + 1) old new s

/-- `escape_keychars` from `src/bookbaker/utils.py`: escape `[`, `(`
and `)` (in that order). -/
def escape_keychars (s : Str) : Str :=
  replaceAll (replaceAll (replaceAll s (str "[") (str "\\[")) (str "(") (str "\\("))
    (str ")") (str "\\)")

/-- `unescape_keychars` from `src/bookbaker/utils.py`. -/
def unescape_keychars (s : Str) : Str :=
  replaceAll (replaceAll (replaceAll s (str "\\[") (str "[")) (str "\\(") (str "("))
    (str "\\)") (str ")")

/-- Length of the maximal run of `c` at the head of the string. -/
def countLeading (c : Char) : Str → Nat
  | [] => 0
  | x :: xs => if x = c then countLeading c xs + 1 else 0

/-- Model of `re.findall` for `_rep_re = ((.)\2{8,})`: maximal runs of
at least 9 copies of a single character.  `.` does not match a newline,
so newline runs are never matched.  Returns `(full match, repeated
character)` pairs in scan order; after a match the scan resumes behind
it, otherwise it advances one character. -/
def findRepGo : Nat → Str → List (Str × Char)
  | 0, _ => []
  | _ + 1, [] => []
  | f + 1, c :: cs =>
    let k := countLeading c cs
    if c ≠ '\n' ∧ 8 ≤ k then
      (List.replicate (k + 1) c, c) :: findRepGo f (cs.drop k)
    else findRepGo f cs

/-- Decimal digits of a natural number, most significant first
(Python's `f"{n}"`), via fuel (`n / 10 < n` for `n ≥ 10`). -/
def natDigitsGo : Nat → Nat → Str
  | 0, _ => []
  | f + 1, n =>
    if n < 10 then [Char.ofNat (48 + n)]
    else natDigitsGo f (n / 10) ++ [Char.ofNat (48 + n % 10)]

/-- Decimal rendering of `n`. -/
def natDigits (n : Nat) : Str := natDigitsGo (n + 1) n

/-- Python's `int(...)` on a decimal digit string. -/
def parseNatDigits (ds : Str) : Nat :=
  ds.foldl (fun a c => a * 10 + (c.toNat - 48)) 0

/-- The `[unit](*count)` replacement text built by `escape_repetition`
(the unit is keychar-escaped, the count rendered in decimal). -/
def repReplacement (c : Char) (n : Nat) : Str :=
  '[' :: escape_keychars [c] ++ ']' :: '(' :: '*' :: natDigits n ++ [')']

/-- `escape_repetition` from `src/bookbaker/utils.py`: for every match
`(full, pattern)` of `_rep_re`, compute `rep_n = len(full) //
len(pattern)` and replace every occurrence of `full` in the string by
`[pattern](*rep_n)`. -/
def escape_repetition (s : Str) : Str :=
  (findRepGo (s.length + 1) s).foldl
    (fun acc m => replaceAll acc m.1 (repReplacement m.2 (m.1.length / [m.2].length))) s

/-- `\(\*(\d+)\)` after the closing bracket of `_un_rep_re`: expects
`'(' '*' digits+ ')'`, returning the digits and the rest. The
look-behind `(?<!\\)` before `\)` is vacuous because the preceding
character is always a digit. -/
def parseStarNum : Str → Option (Str × Str)
  | '(' :: '*' :: rest =>
    let ds := rest.takeWhile Char.isDigit
    if ds = [] then none
    else
      match rest.drop ds.length with
      | c :: r => if c = ')' then some (ds, r) else none
      | [] => none
  | _ => none

/-- Lazy search for `(.*?)[】\]]\(\*(\d+)\)` (the tail of `_un_rep_re`):
grow the content one (non-newline) character at a time, committing to
the first closing bracket whose `(*digits)` tail parses.  Returns
`(content, closing bracket, digits, rest)`. -/
def tryCloseRep : Str → Option (Str × Char × Str × Str)
  | [] => none
  | c :: cs =>
    match (if c = ']' ∨ c = '】' then parseStarNum cs else none) with
    | some (ds, r) => some ([], c, ds, r)
    | none =>
      if c = '\n' then none
      else (tryCloseRep cs).map (fun t => (c :: t.1, t.2.1, t.2.2.1, t.2.2.2))

/-- Model of `re.findall` for
`_un_rep_re = ((?<!\\)[【\[](.*?)[】\]]\(\*(\d+)(?<!\\)\))`: scan left to
right (tracking the previous character for the look-behind), at each
unescaped opening bracket try the lazy tail match, and resume behind a
successful match.  Returns `(full, content, digits)` triples. -/
def findUnRepGo : Nat → Option Char → Str → List (Str × Str × Str)
  | 0, _, _ => []
  | _ + 1, _, [] => []
  | f + 1, prev, c :: cs =>
    if (c = '[' ∨ c = '【') ∧ prev ≠ some '\\' then
      match tryCloseRep cs with
      | some (ct, cl, ds, r) =>
        (c :: ct ++ cl :: '(' :: '*' :: ds ++ [')'], ct, ds) :: findUnRepGo f (some ')') r
      | none => findUnRepGo f (some c) cs
    else findUnRepGo f (some c) cs

/-- Python's `pattern * rep_n`: the string repeated `n` times. -/
def strMul (s : Str) : Nat → Str
  | 0 => []
  | n + 1 => s ++ strMul s n

/-- `unescape_repetition` from `src/bookbaker/utils.py`: for every
match of `_un_rep_re`, replace every occurrence of the full match by
`unescape_keychars(pattern)` repeated `int(digits)` times. -/
def unescape_repetition (s : Str) : Str :=
  (findUnRepGo (s.length + 1) none s).foldl
    (fun acc m => replaceAll acc m.1 (strMul (unescape_keychars m.2.1) (parseNatDigits m.2.2))) s

/-- Does the string contain nine consecutive equal characters?  (The
condition "every maximal run of a single repeated character is shorter
than 9" of the spec is the negation of this.) -/
def hasNineRun : Str → Bool
  | [] => false
  | c :: cs => decide (8 ≤ countLeading c cs) || hasNineRun cs

/-- Does the string contain a match of `_un_rep_re` (the literal
`[unit](*count)` sentinel pattern)? -/
def hasRepSentinel (s : Str) : Bool := !(findUnRepGo (s.length + 1) none s).isEmpty

/-! ### Ruby escaping (`escape_ruby` / `unescape_ruby`) -/

/-- Lazy search for the earliest `</ruby>` after a `<ruby>` opening
(the `.*?` of `_ruby_re = <ruby>.*?<\/ruby>`; `.` excludes newlines).
Returns `(inner text, rest after the closing tag)`. -/
def takeToClose : Str → Option (Str × Str)
  | [] => none
  | c :: cs =>
    if strStarts (str "</ruby>") (c :: cs) then some ([], (c :: cs).drop 7)
    else if c = '\n' then none
    else (takeToClose cs).map (fun p => (c :: p.1, p.2))

/-- Model of `re.findall` for `_ruby_re`: full matches
`<ruby>…</ruby>`, returned as `(full, inner)` pairs (the code re-parses
each full match, recovering the inner text). -/
def findRubyGo : Nat → Str → List (Str × Str)
  | 0, _ => []
  | _ + 1, [] => []
  | f + 1, c :: cs =>
    if strStarts (str "<ruby>") (c :: cs) then
      match takeToClose ((c :: cs).drop 6) with
      | some (inner, rest) =>
        (str "<ruby>" ++ inner ++ str "</ruby>", inner) :: findRubyGo f rest
      | none => findRubyGo f cs
    else findRubyGo f cs

/-- A node of the parsed ruby body: a text run, or a flat tag with its
body.  Models the `soup.ruby.children` iteration of `escape_ruby`
(BeautifulSoup "xml" parsing on the flat well-formed fragments the
crawlers produce; nested markup inside `rb`/`rt` is out of scope). -/
inductive RNode where
  | txt (s : Str)
  | tag (name : Str) (body : Str)
deriving DecidableEq, Repr

/-- First occurrence of `pat` in `s`: `(before, after)`. -/
def splitOnStr (pat : Str) : Str → Option (Str × Str)
  | [] => if strStarts pat [] then some ([], []) else none
  | c :: cs =>
    if strStarts pat (c :: cs) then some ([], (c :: cs).drop pat.length)
    else (splitOnStr pat cs).map (fun p => (c :: p.1, p.2))

/-- Parse a flat XML fragment into text and tag nodes (the BeautifulSoup
model used by `escape_ruby`). -/
def parseNodesGo : Nat → Str → List RNode
  | 0, _ => []
  | _ + 1, [] => []
  | f + 1, '<' :: cs =>
    let name := cs.takeWhile (· ≠ '>')
    let after := cs.drop (name.length + 1)
    match splitOnStr ('<' :: '/' :: name ++ ['>']) after with
    | some (body, rest) => RNode.tag name body :: parseNodesGo f rest
    | none => parseNodesGo f after
  | f + 1, c :: cs =>
    let t := (c :: cs).takeWhile (· ≠ '<')
    RNode.txt t :: parseNodesGo f ((c :: cs).drop t.length)

/-- Python's `s.strip('\n')`: drop leading and trailing newlines. -/
def stripNL (s : Str) : Str :=
  ((s.dropWhile (· = '\n')).reverse.dropWhile (· = '\n')).reverse

/-- The `base`/`top` accumulation of `escape_ruby`: text nodes and
`<rb>` bodies feed `base`, `<rt>` bodies feed `top`, all stripped of
surrounding newlines; other children (e.g. `<rp>`) are dropped. -/
def rubyExtract (inner : Str) : Str × Str :=
  (parseNodesGo (inner.length + 1) inner).foldl
    (fun bt n =>
      match n with
      | .txt s => (bt.1 ++ stripNL s, bt.2)
      | .tag nm body =>
        if nm = str "rb" then (bt.1 ++ stripNL body, bt.2)
        else if nm = str "rt" then (bt.1, bt.2 ++ stripNL body)
        else bt)
    ([], [])

/-- `escape_ruby` from `src/bookbaker/utils.py`: each `<ruby>…</ruby>`
match is replaced (everywhere) by `[base](^top)` with keychar-escaped
base and top. -/
def escape_ruby (s : Str) : Str :=
  (findRubyGo (s.length + 1) s).foldl
    (fun acc m =>
      let bt := rubyExtract m.2
      replaceAll acc m.1
        ('[' :: escape_keychars bt.1 ++ ']' :: '(' :: '^' :: escape_keychars bt.2 ++ [')']))
    s

/-- Lazy search for the `(.*?)(?<!\\)\)` top part of `_un_ruby_re`:
grow the top one (non-newline) character at a time, committing to the
first `)` not preceded by a backslash.  `prev` is the character
immediately before the current position. -/
def tryTopClose : Char → Str → Option (Str × Str)
  | _, [] => none
  | prev, c :: cs =>
    if c = ')' ∧ prev ≠ '\\' then some ([], cs)
    else if c = '\n' then none
    else (tryTopClose c cs).map (fun p => (c :: p.1, p.2))

/-- Lazy search for `(.*?)[】\]]\(\^(.*?)(?<!\\)\)` (the tail of
`_un_ruby_re`): grow the base, committing to the first closing bracket
followed by `(^` whose top part also closes.  Returns
`(base, closing bracket, top, rest)`. -/
def tryCloseRuby : Str → Option (Str × Char × Str × Str)
  | [] => none
  | c :: cs =>
    match (if c = ']' ∨ c = '】' then
             match cs with
             | '(' :: '^' :: r => tryTopClose '^' r
             | _ => none
           else none) with
    | some (tp, rest) => some ([], c, tp, rest)
    | none =>
      if c = '\n' then none
      else (tryCloseRuby cs).map (fun t => (c :: t.1, t.2.1, t.2.2.1, t.2.2.2))

/-- Model of `re.findall` for
`_un_ruby_re = ((?<!\\)[【\[](.*?)[】\]]\(\^(.*?)(?<!\\)\))`.
Returns `(full, base, top)` triples in scan order. -/
def findUnRubyGo : Nat → Option Char → Str → List (Str × Str × Str)
  | 0, _, _ => []
  | _ + 1, _, [] => []
  | f + 1, prev, c :: cs =>
    if (c = '[' ∨ c = '【') ∧ prev ≠ some '\\' then
      match tryCloseRuby cs with
      | some (base, cl, tp, r) =>
        (c :: base ++ cl :: '(' :: '^' :: tp ++ [')'], base, tp) :: findUnRubyGo f (some ')') r
      | none => findUnRubyGo f (some c) cs
    else findUnRubyGo f (some c) cs

/-- `unescape_ruby` from `src/bookbaker/utils.py`: each `[base](^top)`
match is replaced (everywhere) by
`<ruby><rb>base</rb><rt>top</rt></ruby>` with keychars unescaped. -/
def unescape_ruby (s : Str) : Str :=
  (findUnRubyGo (s.length + 1) none s).foldl
    (fun acc m =>
      replaceAll acc m.1
        (str "<ruby><rb>" ++ unescape_keychars m.2.1 ++ str "</rb><rt>" ++
          unescape_keychars m.2.2 ++ str "</rt></ruby>"))
    s

/-- Does the string contain a `<ruby>…</ruby>` construct (a match of
`_ruby_re`)? -/
def hasRubyTag (s : Str) : Bool := !(findRubyGo (s.length + 1) s).isEmpty

/-- Does the string contain a match of `_un_ruby_re` (the literal
`[base](^top)` sentinel pattern)? -/
def hasRubySentinel (s : Str) : Bool := !(findUnRubyGo (s.length + 1) none s).isEmpty

/-! ### Data model (`src/bookbaker/classes.py`)

Datetimes are modelled as `Int` UTC instants (the `TimeMeta` validator
normalizes every stored datetime to UTC, so comparisons are on one
time line).  Fields the modelled code never reads (covers, tags, URLs)
are omitted. -/

/-- `TimeMeta`. -/
structure TimeMeta where
  created_at : Option Int := none
  updated_at : Option Int := none
  saved_at : Int := 0
deriving DecidableEq, Repr

/-- `Line`: `candidates` is a Python dict, modelled as an association
list with unique keys and insertion order. -/
structure Line where
  content : Str
  translated : Option Str := none
  candidates : List (Str × Str) := []
deriving DecidableEq, Repr

/-- `Episode`. -/
structure Episode where
  title : Str
  title_translated : Option Str := none
  notes : Str := []
  notes_translated : Option Str := none
  lines : List Line
  time_meta : TimeMeta := {}
deriving DecidableEq, Repr

/-- `Episode.fully_translated`: every line whose content is non-blank
has a non-null `translated`. -/
def Episode.fully_translated (e : Episode) : Bool :=
  e.lines.all fun l => isBlank l.content || !l.translated.isNone

/-- `Chapter` (the fields read by the modelled code). -/
structure Chapter where
  title : Str
  title_translated : Option Str := none
deriving DecidableEq, Repr

/-- `Book` (the fields read by the modelled code). -/
structure Book where
  title : Str
  title_translated : Option Str := none
  author : Str := []
  series : Option Str := none
  series_translated : Option Str := none
  description : Str := []
  description_translated : Option Str := none
deriving DecidableEq, Repr

/-- Python's `x or y` for an optional string: falls back to `y` when
`x` is `None` or empty. -/
def pyOr (x : Option Str) (y : Str) : Str :=
  match x with
  | none => y
  | some s => if s = [] then y else s

/-- `Episode.html`: the translated HTML rendering.  The title and notes
fall back to the original text, each line renders `line.translated or
''` inside `<p>…</p>`, all joined by newlines after an `<hr>`. -/
def Episode.html (e : Episode) : Str :=
  List.intercalate (str "\n")
    ((str "<h3>" ++ pyOr e.title_translated e.title ++ str "</h3>") ::
     (str "<p>" ++ pyOr e.notes_translated e.notes ++ str "</p>") ::
     str "<hr>" ::
     e.lines.map fun l => str "<p>" ++ pyOr l.translated [] ++ str "</p>")

/-! ### Translation engine (`src/bookbaker/roles/gpt.py`, `gemini.py`)

The two translators share the engine structure verbatim; the models
below follow the common code, with the differences (the
`ContentBlockedError` branch, default configuration values) noted where
they matter.  The backend is abstracted as a function argument: the
claims under verification hold for every backend response, given the
response validation that the engine itself performs. -/

/-- Python dict update `d[k] = v`: replace in place or append. -/
def dictSet : List (Str × Str) → Str → Str → List (Str × Str)
  | [], k, v => [(k, v)]
  | p :: rest, k, v => if p.1 = k then (k, v) :: rest else p :: dictSet rest k v

/-- Python dict lookup as an option. -/
def dictGet (d : List (Str × Str)) (k : Str) : Option Str :=
  (d.find? fun p => p.1 = k).map Prod.snd

/-- A metadata payload: a JSON object `dict[str, str | None]` as an
association list in insertion order. -/
abbrev MetaDict := List (Str × Option Str)

/-- Lookup in a (validated) metadata payload; after the engine's key
validation the key is always present. -/
def mdGet (d : MetaDict) (k : Str) : Option Str :=
  ((d.find? fun p => p.1 = k).map Prod.snd).getD none

/-- `line.translated = v; line.candidates[self.name] = v` — the per-line
assignment performed when a batch response is applied. -/
def assignLine (name : Str) (v : Str) (l : Line) : Line :=
  { l with translated := some v, candidates := dictSet l.candidates name v }

/-- Replace the element at an index (Python `lines[j] = …`;
out-of-range indices never occur at call sites). -/
def modifyAt (f : Line → Line) : Nat → List Line → List Line
  | _, [] => []
  | 0, x :: xs => f x :: xs
  | n + 1, x :: xs => x :: modifyAt f n xs

/-- Apply a validated batch response: `for j, v in zip(indexes,
translated): …`.  (In `gpt.py` the flush block repeats the loop body in
a duplicated nested loop; the line state it produces is identical.) -/
def applyBatch (name : Str) (ls : List Line) (idxs : List Nat) (vs : List Str) : List Line :=
  (idxs.zip vs).foldl (fun a p => modifyAt (assignLine name p.2) p.1 a) ls

/-- Is a line picked up by the batching loop?  Blank lines are always
skipped; translated lines are skipped when `skip_translated` is set. -/
def eligible (skip : Bool) (l : Line) : Bool :=
  !isBlank l.content && !(skip && !l.translated.isNone)

/-- The `if indexes:` flush at the end of the episode: send the pending
batch (if any) and apply the response. -/
def lineFlush (tr : List Str → List Str) (name : Str) (ls : List Line) (idxs : List Nat)
    (cts : List Str) (acc : List (List Str)) : List Line × List (List Str) :=
  if idxs ≠ [] then (applyBatch name ls idxs (tr cts), acc ++ [cts]) else (ls, acc)

/-- The line-batching loop of `translate` (`gpt.py` lines 227–265,
`gemini.py` lines 233–266): walk the lines, accumulate eligible line
contents until the cumulative character count exceeds `batch_size`,
send the batch and apply the response, and flush any pending batch at
the end.  Returns the updated lines and the batches sent, in order.
`fuel` bounds the remaining iterations (`ls.length + 1` from position
0 always suffices, since batch application preserves the list length);
a fuel-exhausted loop — unreachable from `translateModel` — behaves
like the end-of-list flush. -/
def lineLoop (tr : List Str → List Str) (name : Str) (skip : Bool) (bsz : Nat) :
    Nat → List Line → Nat → List Nat → List Str → Nat → List (List Str) →
    List Line × List (List Str)
  | 0, ls, _, idxs, cts, _, acc => lineFlush tr name ls idxs cts acc
  | f + 1, ls, i, idxs, cts, cnt, acc =>
    match ls[i]? with
    | none => lineFlush tr name ls idxs cts acc
    | some ln =>
      if eligible skip ln then
        let idxs1 := idxs ++ [i]
        let cts1 := cts ++ [ln.content]
        let cnt1 := cnt + ln.content.length
        if bsz < cnt1 then
          lineLoop tr name skip bsz f (applyBatch name ls idxs1 (tr cts1)) (i + 1) [] [] 0
            (acc ++ [cts1])
        else lineLoop tr name skip bsz f ls (i + 1) idxs1 cts1 cnt1 acc
      else lineLoop tr name skip bsz f ls (i + 1) idxs cts cnt acc

/-- Does the book-metadata payload need translating?  `None in
(book.title_translated, book.description_translated,
book.series_translated if book.series else '')` — note that a single
missing field triggers re-translation of the whole payload, and that
`series` only counts when truthy (non-`None`, non-empty). -/
def bookNeedsMeta (b : Book) : Bool :=
  b.title_translated.isNone || b.description_translated.isNone ||
    (b.series.getD [] ≠ [] && b.series_translated.isNone)

/-- The book-metadata request payload. -/
def bookMetaReq (b : Book) : MetaDict :=
  [(str "title", some b.title), (str "description", some b.description),
   (str "series", b.series)]

/-- The chapter-metadata request payload. -/
def chapterMetaReq (c : Chapter) : MetaDict := [(str "title", some c.title)]

/-- The episode-metadata request payload (built once, before the
metadata phase, from the episode's original title and notes). -/
def episodeMetaReq (e : Episode) : MetaDict :=
  [(str "title", some e.title), (str "notes", some e.notes)]

/-- Apply a validated book-metadata response: all three translated
fields are overwritten. -/
def applyBookMeta (resp : MetaDict) (b : Book) : Book :=
  { b with
      title_translated := mdGet resp (str "title")
      description_translated := mdGet resp (str "description")
      series_translated := mdGet resp (str "series") }

/-- Apply a validated chapter-metadata response. -/
def applyChapterMeta (resp : MetaDict) (c : Chapter) : Chapter :=
  { c with title_translated := mdGet resp (str "title") }

/-- Apply a validated episode-metadata response: both translated fields
are overwritten. -/
def applyEpisodeMeta (resp : MetaDict) (e : Episode) : Episode :=
  { e with
      title_translated := mdGet resp (str "title")
      notes_translated := mdGet resp (str "notes") }

/-- The metadata phase of `translate` (`gpt.py` lines 201–225,
`gemini.py` lines 207–231): the book payload is sent iff any of its
three translated fields is missing (and then all three are
overwritten); the chapter payload iff the chapter title translation is
missing; the episode payload is always sent and its results always
overwrite `title_translated` / `notes_translated`.  Returns the updated
entities and the payloads sent, in order. -/
def metaPhase (trMeta : MetaDict → MetaDict) (book : Option Book) (chapter : Option Chapter)
    (ep : Episode) : Option Book × Option Chapter × Episode × List MetaDict :=
  let bs : Option Book × List MetaDict :=
    match book with
    | some b =>
      if bookNeedsMeta b then (some (applyBookMeta (trMeta (bookMetaReq b)) b), [bookMetaReq b])
      else (some b, [])
    | none => (none, [])
  let cs : Option Chapter × List MetaDict :=
    match chapter with
    | some c =>
      if c.title_translated.isNone then
        (some (applyChapterMeta (trMeta (chapterMetaReq c)) c), [chapterMetaReq c])
      else (some c, [])
    | none => (none, [])
  (bs.1, cs.1, applyEpisodeMeta (trMeta (episodeMetaReq ep)) ep,
   bs.2 ++ cs.2 ++ [episodeMetaReq ep])

/-- Configuration of a translator backend (`name`, `skip_translated`,
`batch_size`). -/
structure TrConfig where
  name : Str
  skip : Bool := true
  bsz : Nat := 512
deriving DecidableEq, Repr

/-- Result of one `translate` call. -/
structure TrResult where
  book : Option Book
  chapter : Option Chapter
  episode : Episode
  sentMeta : List MetaDict
  batches : List (List Str)
deriving DecidableEq, Repr

/-- The `translate` method of `GPTTranslator` / `GeminiTranslator`, for
a run in which every backend request succeeds validation: early return
when the episode is fully translated and `skip_translated` is set,
otherwise the metadata phase followed by the line-batching loop.
`trMeta` and `trLines` are the validated backend responses for keyed
and line payloads respectively (the store upsert is a side effect
outside the model). -/
def translateModel (cfg : TrConfig) (trMeta : MetaDict → MetaDict)
    (trLines : List Str → List Str) (book : Option Book) (chapter : Option Chapter)
    (ep : Episode) : TrResult :=
  if ep.fully_translated ∧ cfg.skip then
    { book := book, chapter := chapter, episode := ep, sentMeta := [], batches := [] }
  else
    let m := metaPhase trMeta book chapter ep
    let lb := lineLoop trLines cfg.name cfg.skip cfg.bsz (m.2.2.1.lines.length + 1)
      m.2.2.1.lines 0 [] [] 0 []
    { book := m.1, chapter := m.2.1, episode := { m.2.2.1 with lines := lb.1 },
      sentMeta := m.2.2.2, batches := lb.2 }

/-! ### Response validation for line batches -/

/-- Split a string on a separator character (Python `str.split(sep)`
with a one-character separator). -/
def splitOnChar (sep : Char) : Str → List Str
  | [] => [[]]
  | c :: cs =>
    let r := splitOnChar sep cs
    if c = sep then [] :: r
    else
      match r with
      | [] => [[c]]
      | h :: t => (c :: h) :: t

/-- Validation of a raw line-batch response (`gpt.py` lines 160–173,
`gemini.py` lines 164–177): unescape ruby (when configured) and
repetitions, split on newlines, restore escaped `\n`, drop falsy
(empty) entries, and accept iff the resulting count equals the request
count.  `none` models the `ValueError("Length mismatch")` that makes
the attempt fail and be retried. -/
def processListResp (convertRuby : Bool) (resp : Str) (req : List Str) :
    Option (List Str) :=
  let r1 := if convertRuby then unescape_ruby resp else resp
  let r2 := unescape_repetition r1
  let obj := ((splitOnChar '\n' r2).map
      (fun x => replaceAll x (str "\\n") (str "\n"))).filter (· ≠ [])
  if obj.length = req.length then some obj else none

/-! ### The retry / session-rollback loop

The inner `translate` of both backends (`gpt.py` lines 146–199,
`gemini.py` lines 155–205) takes a snapshot `sess_bak` of the session
messages just before the first attempt; on a failed attempt it resets
the messages, increments the retry counter, raises a `RuntimeError`
once `retry > max_retries`, and in the `finally` block increments the
cycle counter and appends the glossary reminder exchange every
`remind_interval` cycles.  In `gemini.py` a `ContentBlockedError`
re-raises before the generic handler.  The reset, however, differs
between the backends:

* `gpt.py` line 186 executes `sess.messages = sess_bak.copy()`: every
  failure installs a *fresh copy* of the snapshot, so whatever a failed
  attempt appended to the live list is discarded and only the reminder
  appended after the reset survives into the next attempt.
  `retryLoop` models this; since every reset lands on the pristine
  snapshot, the messages a failed attempt appended never reach a
  traced attempt boundary and need not be tracked.
* `gemini.py` line 193 executes `sess.messages = sess_bak` *without*
  `.copy()`: the first failure re-points the live message list at the
  snapshot object itself, after which the two are one object, every
  later reset is a no-op, and the messages the backend client appended
  during a failed attempt stay in the history (as do the reminders).
  `geminiRetryLoop` models this, carrying the per-attempt appended
  messages (`junk`) and an aliasing flag.

Messages are tracked at attempt boundaries (the `trace` lists the
history at the start of each attempt); the message state after a
successful or aborting attempt is not consumed by anything modelled
here. -/

/-- The observable outcome of one backend request: a validated
response, a validation/parse failure, or a content-policy rejection
(`ContentBlockedError`, Gemini only — `gpt.py` has no such branch and
its backend raises no such error). -/
inductive Outcome where
  | ok (v : Str)
  | invalid
  | blocked
deriving DecidableEq, Repr

/-- How the loop ends: validated value, `RuntimeError` after the retry
budget, or propagated `ContentBlockedError`.  `starved` is a model
artifact: the supplied outcome sequence ended first. -/
inductive LoopEnd where
  | value (v : Str)
  | fatal
  | blockedErr
  | starved
deriving DecidableEq, Repr

/-- Result of the retry loop: how it ended, plus the session message
history at the start of each attempt, in order. -/
structure RetryResult where
  result : LoopEnd
  trace : List (List Str)
deriving DecidableEq, Repr

/-- The `finally` block: bump the cycle counter and append the reminder
exchange (`remind()`) every `remind_interval` cycles.  In `gpt.py` the
reminder appends only when the task has glossaries — modelled by
`remindMsgs = []`. -/
def finallyStep (remInt : Option Nat) (remindMsgs : List Str) (msgs : List Str)
    (cycle : Nat) : List Str × Nat :=
  match remInt with
  | some r => if r ≤ cycle + 1 then (msgs ++ remindMsgs, 0) else (msgs, cycle + 1)
  | none => (msgs, cycle + 1)

/-- The retry loop with snapshot-copy reset, consuming one outcome per
attempt: `gpt.py` lines 150–199, whose failed attempts restore a fresh
copy of the snapshot (`sess.messages = sess_bak.copy()`, line 186).
The `blocked` branch is `gemini.py`'s `except ContentBlockedError:
raise`, which precedes the generic handler and ends the loop before
any reset, so its behavior is independent of the reset semantics and
coincides with the `blocked` branch of `geminiRetryLoop`. -/
def retryLoop (maxR : Option Nat) (remInt : Option Nat) (remindMsgs : List Str)
    (bak : List Str) : List Outcome → List Str → Nat → Nat → RetryResult
  | [], _, _, _ => { result := .starved, trace := [] }
  | o :: rest, msgs, retry, cycle =>
    match o with
    | .ok v => { result := .value v, trace := [msgs] }
    | .blocked => { result := .blockedErr, trace := [msgs] }
    | .invalid =>
      let retry1 := retry + 1
      if (maxR.map fun m => decide (m < retry1)).getD false then
        { result := .fatal, trace := [msgs] }
      else
        let mc := finallyStep remInt remindMsgs bak cycle
        let r := retryLoop maxR remInt remindMsgs bak rest mc.1 retry1 mc.2
        { result := r.result, trace := msgs :: r.trace }

/-- Entry point: `sess_bak = sess.messages.copy()` and `retry = 0` just
before the first attempt (the surrounding cycle counter is arbitrary). -/
def translateRetry (maxR : Option Nat) (remInt : Option Nat) (remindMsgs : List Str)
    (msgs : List Str) (cycle : Nat) (outcomes : List Outcome) : RetryResult :=
  retryLoop maxR remInt remindMsgs msgs outcomes msgs 0 cycle

/-- Number of leading `invalid` outcomes. -/
def leadInvalid : List Outcome → Nat
  | .invalid :: rest => leadInvalid rest + 1
  | _ => 0

/-- The Gemini retry loop (`gemini.py` lines 159–205).  Each attempt is
an outcome paired with the messages the backend client appended to the
live session list during that attempt (`junk`).  Unlike `retryLoop`,
the generic failure handler executes `sess.messages = sess_bak`
*without* `.copy()` (line 193): the first failure re-points the live
list at the snapshot object itself — discarding that attempt's `junk`
but aliasing the two lists from then on — so every later reset is a
no-op and the `junk` of later failed attempts stays in the history.
Before the first failure nothing has mutated the snapshot, which still
holds the pristine entry contents `bak`. -/
def geminiRetryLoop (maxR : Option Nat) (remInt : Option Nat) (remindMsgs : List Str)
    (bak : List Str) : List (Outcome × List Str) → List Str → Bool → Nat → Nat → RetryResult
  | [], _, _, _, _ => { result := .starved, trace := [] }
  | (o, junk) :: rest, msgs, aliased, retry, cycle =>
    match o with
    | .ok v => { result := .value v, trace := [msgs] }
    | .blocked => { result := .blockedErr, trace := [msgs] }
    | .invalid =>
      let msgs1 := if aliased then msgs ++ junk else bak
      let retry1 := retry + 1
      if (maxR.map fun x => decide (x < retry1)).getD false then
        { result := .fatal, trace := [msgs] }
      else
        let mc := finallyStep remInt remindMsgs msgs1 cycle
        let r := geminiRetryLoop maxR remInt remindMsgs bak rest mc.1 true retry1 mc.2
        { result := r.result, trace := msgs :: r.trace }

/-- Entry point for the Gemini loop: `sess_bak = sess.messages.copy()`
(`gemini.py` line 155) makes the snapshot a distinct object with the
current contents, so the loop starts un-aliased with `retry = 0` (the
surrounding cycle counter is arbitrary). -/
def geminiTranslateRetry (maxR : Option Nat) (remInt : Option Nat) (remindMsgs : List Str)
    (msgs : List Str) (cycle : Nat) (attempts : List (Outcome × List Str)) : RetryResult :=
  geminiRetryLoop maxR remInt remindMsgs msgs attempts msgs false 0 cycle

/-! ### Crawler staleness check (`src/bookbaker/roles/syosetu_com.py`)

`crawl_stream` lines 100–121: for an episode already present in the
stored book, record the freshly observed instants in its `time_meta`
and re-download its content iff the source-reported `updated_at` is
strictly newer than the stored `saved_at`; a missing episode is always
downloaded.  `fetched` stands for the episode `get_episode` would
return. -/

/-- One index-page entry step of `crawl_stream`.  Returns the episode
that ends up in the chapter and whether the content was re-downloaded. -/
def crawlStep (stored : Option Episode) (fetched : Episode)
    (created_at updated_at : Int) : Episode × Bool :=
  match stored with
  | some e =>
    let e1 := { e with time_meta :=
      { e.time_meta with
          created_at := some (e.time_meta.created_at.getD created_at),
          updated_at := some updated_at } }
    if e1.time_meta.saved_at < updated_at then (fetched, true) else (e1, false)
  | none => (fetched, true)

/-! ## Claim C8 — crawler staleness check -/

/-- C8: for an episode already present in the stored book,
`crawl_stream` re-downloads its content iff the source-reported
`updated_at` is strictly newer than the stored `saved_at`; otherwise
the stored episode's lines are kept unchanged. -/
theorem C8_staleness (e fetched : Episode) (ca ua : Int) :
    ((crawlStep (some e) fetched ca ua).2 = true ↔ e.time_meta.saved_at < ua) ∧
    ((crawlStep (some e) fetched ca ua).2 = false →
      (crawlStep (some e) fetched ca ua).1.lines = e.lines) := by
  by_cases h : e.time_meta.saved_at < ua <;> simp [crawlStep, h]

/-- A concrete stored episode used by the C8 witness. -/
def epStoredC8 : Episode :=
  { title := str "e"
    lines := [{ content := str "x" }]
    time_meta := { saved_at := 5 } }

/-- A concrete freshly downloaded episode used by the C8 witness. -/
def epFetchedC8 : Episode :=
  { title := str "e"
    lines := [] }

/-- C8 witness: with `saved_at = 5` and `updated_at = 5` the stored
episode is not re-downloaded and keeps its lines. -/
theorem C8_staleness_witness :
    (crawlStep (some epStoredC8) epFetchedC8 1 5).1.lines = epStoredC8.lines :=
  (C8_staleness epStoredC8 epFetchedC8 1 5).2 (by decide)

/-! ## Claim C9 — content-policy rejection propagates without retry -/

/-- C9: in `GeminiTranslator.translate`, a `ContentBlockedError` from
the backend propagates immediately out of the retry loop: exactly one
attempt is made and the loop ends with the blocked error, for every
retry budget, reminder configuration and remaining outcome sequence. -/
theorem C9_blocked_propagates (maxR remInt : Option Nat) (rem msgs : List Str)
    (cycle : Nat) (rest : List Outcome) :
    (translateRetry maxR remInt rem msgs cycle (Outcome.blocked :: rest)).result =
      LoopEnd.blockedErr ∧
    (translateRetry maxR remInt rem msgs cycle (Outcome.blocked :: rest)).trace = [msgs] :=
  ⟨rfl, rfl⟩

/-! ## Claim C10 — `Episode.html` rendering -/

/-- C10: in `Episode.html`, the title and notes fall back to the
original text when no translation is present; every line without a
translation renders as the empty paragraph `<p></p>`; and the output
never depends on any line's original content (so untranslated source
text cannot appear through the line renderings). -/
theorem C10_html (e : Episode) :
    (e.title_translated = none → e.notes_translated = none →
      Episode.html e = List.intercalate (str "\n")
        ((str "<h3>" ++ e.title ++ str "</h3>") ::
         (str "<p>" ++ e.notes ++ str "</p>") ::
         str "<hr>" ::
         e.lines.map fun l => str "<p>" ++ pyOr l.translated [] ++ str "</p>")) ∧
    (∀ l ∈ e.lines, l.translated = none →
      str "<p>" ++ pyOr l.translated [] ++ str "</p>" = str "<p></p>") ∧
    (∀ f : Str → Str,
      Episode.html { e with lines := e.lines.map fun l => { l with content := f l.content } } =
        Episode.html e) := by
  refine ⟨fun h1 h2 => ?_, fun l _ hl => ?_, fun f => ?_⟩
  · simp [Episode.html, pyOr, h1, h2]
  · simp [pyOr, hl, str]
  · simp [Episode.html, List.map_map]
    rfl

/-! ## Counterexamples for the claims the code does not satisfy -/

/-- Episode with one line already translated (without a candidates
entry) and one untranslated line. -/
def epPartial : Episode :=
  { title := str "t"
    lines := [{ content := str "a", translated := some (str "x") },
              { content := str "b" }] }

/-- C1 counterexample: with the default configuration
(`skip_translated = true`) a successful `translate` leaves a non-blank,
already-translated line without any `candidates` entry for the
translator, so "every non-blank line's `candidates[backendName]`
equals `translated`" fails (`candidates` is empty while `translated` is
non-null). -/
theorem C1_counterexample :
    (translateModel { name := str "g" } (fun d => d) (fun l => l) none none
        epPartial).episode.lines.head? =
      some { content := str "a", translated := some (str "x"), candidates := [] } ∧
    isBlank (str "a") = false ∧
    dictGet [] (str "g") = none := by
  decide

/-- C2 counterexample: with `remind_interval = 3` and a non-empty
glossary reminder, after three failed attempts the reminder exchange
is appended *after* the rollback, so the fourth attempt starts from
`sess_bak ++ reminder`, not from the pre-attempt snapshot (`[]`). -/
theorem C2_counterexample :
    (translateRetry (some 10) (some 3) [str "R"] [] 0
        [Outcome.invalid, Outcome.invalid, Outcome.invalid, Outcome.ok (str "v")]).trace =
      [[], [], [], [str "R"]] ∧
    ([str "R"] : List Str) ≠ [] := by
  decide

/-- Episode with a populated title translation and an untranslated
line (so the early exit does not apply). -/
def epTitleDone : Episode :=
  { title := str "T"
    title_translated := some (str "X")
    lines := [{ content := str "b" }] }

/-- C3 counterexample: the episode metadata payload is sent on every
call — even though `title_translated` is already populated, the `title`
field is re-sent and its translation overwritten (here from `"X"` to
`"N"`). -/
theorem C3_counterexample :
    (translateModel { name := str "g" } (fun d => d.map fun p => (p.1, some (str "N")))
        (fun l => l) none none epTitleDone).episode.title_translated = some (str "N") ∧
    some (str "N") ≠ some (str "X") ∧
    ((translateModel { name := str "g" } (fun d => d.map fun p => (p.1, some (str "N")))
        (fun l => l) none none epTitleDone).sentMeta.head?.getD []).map Prod.fst =
      [str "title", str "notes"] := by
  decide

/-- C4 counterexample: a line-batch response whose second line is the
empty string but whose line count is correct (`"x\n"` splits into
`["x", ""]` for a 2-line request) is *not* accepted: the falsy filter
drops the empty entry, the count check fails, and the attempt is
rejected (retried), contradicting "accepts, records and warns". -/
theorem C4_counterexample :
    splitOnChar '\n' (str "x\n") = [str "x", []] ∧
    processListResp true (str "x\n") [str "a", str "b"] = none := by
  decide

/-- Episode with a single two-character line, for the C5 batch-budget
counterexample. -/
def epTwoChar : Episode :=
  { title := str "t"
    lines := [{ content := str "ab" }] }

/-- C5 counterexample: with `batch_size = 1`, the batch sent contains
2 cumulative characters — the engine dispatches once the budget is
*exceeded*, so a sent batch is not bounded by `batch_size`. -/
theorem C5_counterexample :
    (translateModel { name := str "g", bsz := 1 } (fun d => d) (fun l => l) none none
        epTwoChar).batches = [[str "ab"]] ∧
    ¬ ((str "ab").length ≤ 1) := by
  decide

/-- C6 counterexample: the input `"[a](*3)"` has no repeated run of
length ≥ 9, yet the round trip rewrites it to `"aaa"`; and a run of
nine newlines is a run of length ≥ 9 that `escape_repetition` leaves
unchanged (the regex `.` does not match a newline), refuting both
halves of the claim as stated. -/
theorem C6_counterexample :
    hasNineRun (str "[a](*3)") = false ∧
    unescape_repetition (escape_repetition (str "[a](*3)")) = str "aaa" ∧
    str "aaa" ≠ str "[a](*3)" ∧
    escape_repetition (List.replicate 9 '\n') = List.replicate 9 '\n' := by
  decide

/-- C7 counterexample: `"<ruby>a<rt>b</rt></ruby>"` contains no
`[base](^top)` sentinel, yet the round trip normalizes it to
`"<ruby><rb>a</rb><rt>b</rt></ruby>"`, which differs from the input. -/
theorem C7_counterexample :
    hasRubySentinel (str "<ruby>a<rt>b</rt></ruby>") = false ∧
    unescape_ruby (escape_ruby (str "<ruby>a<rt>b</rt></ruby>")) =
      str "<ruby><rb>a</rb><rt>b</rt></ruby>" ∧
    str "<ruby><rb>a</rb><rt>b</rt></ruby>" ≠ str "<ruby>a<rt>b</rt></ruby>" := by
  decide

/-! ## Supporting lemmas for the codec round-trip claims -/

/-- `strStarts` holds of a string against itself. -/
theorem strStarts_refl (s : Str) : strStarts s s = true := by
  induction s with
  | nil => rfl
  | cons c cs ih => simp [strStarts, ih]

/-- `replaceGo` on the empty subject. -/
theorem replaceGo_nil (f : Nat) (old new : Str) : replaceGo f old new [] = [] := by
  cases f <;> rfl

/-- Replacing the whole string: `replaceAll s s new = new`. -/
theorem replaceAll_self (s new : Str) (h : s ≠ []) : replaceAll s s new = new := by
  unfold replaceAll
  rw [if_neg h]
  cases s with
  | nil => exact absurd rfl h
  | cons c cs =>
    have hdrop : List.drop (cs.length + 1) (c :: cs) = [] := by
      rw [List.drop_succ_cons]
      exact List.drop_length cs
    simp [replaceGo, strStarts_refl, hdrop, replaceGo_nil]

/-- A two-character pattern never occurs in a single-character string. -/
theorem replaceAll_pair_single (c a b : Char) (t new : Str) :
    replaceAll [c] (a :: b :: t) new = [c] := by
  simp [replaceAll, replaceGo, strStarts]

/-- A single-character pattern different from the character does not
occur in a one-character string. -/
theorem replaceAll_single_ne (c k : Char) (new : Str) (h : k ≠ c) :
    replaceAll [c] [k] new = [c] := by
  simp [replaceAll, replaceGo, strStarts, h]

/-- `escape_keychars` leaves a single non-keychar character unchanged. -/
theorem escape_keychars_single (c : Char) (h1 : c ≠ '[') (h2 : c ≠ '(') (h3 : c ≠ ')') :
    escape_keychars [c] = [c] := by
  show replaceAll (replaceAll (replaceAll [c] ['['] ['\\', '[']) ['('] ['\\', '('])
    [')'] ['\\', ')'] = [c]
  rw [replaceAll_single_ne c '[' _ (Ne.symm h1)]
  rw [replaceAll_single_ne c '(' _ (Ne.symm h2)]
  rw [replaceAll_single_ne c ')' _ (Ne.symm h3)]

/-- `unescape_keychars` leaves a single character unchanged. -/
theorem unescape_keychars_single (c : Char) : unescape_keychars [c] = [c] := by
  show replaceAll (replaceAll (replaceAll [c] ['\\', '['] ['[']) ['\\', '('] ['('])
    ['\\', ')'] [')'] = [c]
  rw [replaceAll_pair_single, replaceAll_pair_single, replaceAll_pair_single]

/-- `natDigitsGo` with sufficient fuel: non-empty, all digits, and
parsed back to the original number. -/
theorem natDigitsGo_spec (f : Nat) :
    ∀ n, n < f → natDigitsGo f n ≠ [] ∧
      (∀ d ∈ natDigitsGo f n, d.isDigit = true) ∧
      parseNatDigits (natDigitsGo f n) = n := by
  induction f with
  | zero => intro n hn; omega
  | succ f ih =>
    intro n hn
    by_cases h10 : n < 10
    · refine ⟨by simp [natDigitsGo, h10], ?_, ?_⟩
      · intro d hd
        simp [natDigitsGo, h10] at hd
        subst hd
        interval_cases n <;> decide
      · simp [natDigitsGo, h10, parseNatDigits]
        interval_cases n <;> decide
    · have hdivlt : n / 10 < n := Nat.div_lt_self (by omega) (by omega)
      have hdiv : n / 10 < f := by omega
      obtain ⟨hne, hdig, hval⟩ := ih (n / 10) hdiv
      refine ⟨?_, ?_, ?_⟩
      · simp [natDigitsGo, h10]
      · intro d hd
        simp only [natDigitsGo, if_neg h10] at hd
        rcases List.mem_append.mp hd with h | h
        · exact hdig d h
        · simp at h
          subst h
          have : n % 10 < 10 := Nat.mod_lt _ (by omega)
          interval_cases hm : n % 10 <;> simp_all
      · simp only [natDigitsGo, if_neg h10, parseNatDigits, List.foldl_append]
        have hmod : n % 10 < 10 := Nat.mod_lt _ (by omega)
        have hchar : (Char.ofNat (48 + n % 10)).toNat - 48 = n % 10 := by
          interval_cases hm : n % 10 <;> decide
        simp only [List.foldl]
        rw [show (natDigitsGo f (n / 10)).foldl (fun a c => a * 10 + (c.toNat - 48)) 0 =
          parseNatDigits (natDigitsGo f (n / 10)) from rfl, hval, hchar]
        omega

/-- `natDigits` is non-empty. -/
theorem natDigits_ne_nil (n : Nat) : natDigits n ≠ [] :=
  (natDigitsGo_spec (n + 1) n (by omega)).1

/-- Every character of `natDigits n` is a digit. -/
theorem natDigits_all_digit (n : Nat) : ∀ d ∈ natDigits n, d.isDigit = true :=
  (natDigitsGo_spec (n + 1) n (by omega)).2.1

/-- Parsing the decimal rendering gives back the number. -/
theorem parseNatDigits_natDigits (n : Nat) : parseNatDigits (natDigits n) = n :=
  (natDigitsGo_spec (n + 1) n (by omega)).2.2

/-- `takeWhile` stops exactly at the first failing element. -/
theorem takeWhile_app_all (p : Char → Bool) (l : Str) (b : Char) (r : Str)
    (hl : ∀ a ∈ l, p a = true) (hb : p b = false) :
    (l ++ b :: r).takeWhile p = l := by
  induction l with
  | nil => simp [List.takeWhile_cons, hb]
  | cons x xs ih =>
    simp only [List.cons_append, List.takeWhile_cons, hl x (by simp)]
    rw [ih fun a ha => hl a (by simp [ha])]
    simp

/-- `parseStarNum` on a well-formed `(*digits)` tail. -/
theorem parseStarNum_spec (ds r : Str) (h1 : ds ≠ []) (h2 : ∀ d ∈ ds, d.isDigit = true) :
    parseStarNum ('(' :: '*' :: (ds ++ ')' :: r)) = some (ds, r) := by
  simp only [parseStarNum]
  rw [takeWhile_app_all Char.isDigit ds ')' r h2 (by decide)]
  rw [if_neg h1]
  rw [show (ds ++ ')' :: r).drop ds.length = ')' :: r from List.drop_left ds (')' :: r)]
  simp

/-- `tryCloseRep` commits immediately on a closing bracket whose
`(*digits)` tail parses. -/
theorem tryCloseRep_close (ds r : Str) (h1 : ds ≠ []) (h2 : ∀ d ∈ ds, d.isDigit = true) :
    tryCloseRep (']' :: '(' :: '*' :: (ds ++ ')' :: r)) = some ([], ']', ds, r) := by
  simp [tryCloseRep, parseStarNum_spec ds r h1 h2]

/-- `tryCloseRep` extends the content over a non-closing, non-newline
character. -/
theorem tryCloseRep_not_close (c : Char) (cs : Str) (h1 : ¬(c = ']' ∨ c = '】'))
    (h2 : c ≠ '\n') :
    tryCloseRep (c :: cs) =
      (tryCloseRep cs).map (fun t => (c :: t.1, t.2.1, t.2.2.1, t.2.2.2)) := by
  simp only [tryCloseRep]
  rw [if_neg h1]
  simp [h2]

/-- `tryCloseRep` extends the content over a closing bracket whose tail
does not parse. -/
theorem tryCloseRep_close_fail (c : Char) (cs : Str) (hc : c = ']' ∨ c = '】')
    (h2 : parseStarNum cs = none) (h3 : c ≠ '\n') :
    tryCloseRep (c :: cs) =
      (tryCloseRep cs).map (fun t => (c :: t.1, t.2.1, t.2.2.1, t.2.2.2)) := by
  simp only [tryCloseRep]
  rw [if_pos hc, h2]
  simp [h3]

/-- `tryCloseRep` on the tail of a `repReplacement`: the content is
exactly the escaped unit, for every non-newline character. -/
theorem tryCloseRep_repShape (c : Char) (hn : c ≠ '\n') (ds r : Str) (h1 : ds ≠ [])
    (h2 : ∀ d ∈ ds, d.isDigit = true) :
    tryCloseRep (escape_keychars [c] ++ ']' :: '(' :: '*' :: (ds ++ ')' :: r)) =
      some (escape_keychars [c], ']', ds, r) := by
  by_cases hL : c = '['
  · subst hL
    rw [show escape_keychars ['['] = ['\\', '['] from by decide]
    simp only [List.cons_append, List.nil_append]
    rw [tryCloseRep_not_close '\\' _ (by decide) (by decide)]
    rw [tryCloseRep_not_close '[' _ (by decide) (by decide)]
    rw [tryCloseRep_close ds r h1 h2]
    rfl
  by_cases hP : c = '('
  · subst hP
    rw [show escape_keychars ['('] = ['\\', '('] from by decide]
    simp only [List.cons_append, List.nil_append]
    rw [tryCloseRep_not_close '\\' _ (by decide) (by decide)]
    rw [tryCloseRep_not_close '(' _ (by decide) (by decide)]
    rw [tryCloseRep_close ds r h1 h2]
    rfl
  by_cases hQ : c = ')'
  · subst hQ
    rw [show escape_keychars [')'] = ['\\', ')'] from by decide]
    simp only [List.cons_append, List.nil_append]
    rw [tryCloseRep_not_close '\\' _ (by decide) (by decide)]
    rw [tryCloseRep_not_close ')' _ (by decide) (by decide)]
    rw [tryCloseRep_close ds r h1 h2]
    rfl
  rw [escape_keychars_single c hL hP hQ]
  simp only [List.cons_append, List.nil_append]
  by_cases hcl : c = ']' ∨ c = '】'
  · rw [tryCloseRep_close_fail c (']' :: '(' :: '*' :: (ds ++ ')' :: r)) hcl rfl hn]
    rw [tryCloseRep_close ds r h1 h2]
    rfl
  · rw [tryCloseRep_not_close c (']' :: '(' :: '*' :: (ds ++ ')' :: r)) hcl hn]
    rw [tryCloseRep_close ds r h1 h2]
    rfl

/-- `findUnRepGo` on the empty string, for every fuel. -/
theorem findUnRepGo_nil (f : Nat) (prev : Option Char) : findUnRepGo f prev [] = [] := by
  cases f <;> rfl

/-- `findUnRepGo` finds exactly the one sentinel in a `repReplacement`. -/
theorem findUnRepGo_repShape (c : Char) (hn : c ≠ '\n') (n : Nat) :
    findUnRepGo ((repReplacement c n).length + 1) none (repReplacement c n) =
      [(repReplacement c n, escape_keychars [c], natDigits n)] := by
  have hE := tryCloseRep_repShape c hn (natDigits n) [] (natDigits_ne_nil n)
    (natDigits_all_digit n)
  have key : repReplacement c n =
      '[' :: (escape_keychars [c] ++ ']' :: '(' :: '*' :: (natDigits n ++ ')' :: [])) := by
    simp [repReplacement]
  rw [key]
  simp only [findUnRepGo]
  rw [hE]
  simp [findUnRepGo_nil, List.cons_append, List.append_assoc]

/-- `strMul` of a singleton is `List.replicate`. -/
theorem strMul_single (c : Char) (n : Nat) : strMul [c] n = List.replicate n c := by
  induction n with
  | zero => rfl
  | succ n ih => simp [strMul, ih, List.replicate_succ]

/-- `unescape_keychars` recovers the unit from its escaped form. -/
theorem unescape_keychars_esc (c : Char) :
    unescape_keychars (escape_keychars [c]) = [c] := by
  by_cases hL : c = '['
  · subst hL; decide
  by_cases hP : c = '('
  · subst hP; decide
  by_cases hQ : c = ')'
  · subst hQ; decide
  rw [escape_keychars_single c hL hP hQ, unescape_keychars_single]

/-- `repReplacement` is never the empty string. -/
theorem repReplacement_ne_nil (c : Char) (n : Nat) : repReplacement c n ≠ [] := by
  simp [repReplacement]

/-- `unescape_repetition` expands a `repReplacement` back to the run. -/
theorem unescape_repetition_repShape (c : Char) (hn : c ≠ '\n') (n : Nat) :
    unescape_repetition (repReplacement c n) = List.replicate n c := by
  unfold unescape_repetition
  rw [findUnRepGo_repShape c hn n]
  simp only [List.foldl]
  rw [replaceAll_self _ _ (repReplacement_ne_nil c n)]
  rw [unescape_keychars_esc, parseNatDigits_natDigits, strMul_single]

/-- `countLeading` of a replicated run. -/
theorem countLeading_replicate (c : Char) (m : Nat) :
    countLeading c (List.replicate m c) = m := by
  induction m with
  | zero => rfl
  | succ m ih => simp [List.replicate_succ, countLeading, ih]

/-- `findRepGo` on the empty string, for every fuel. -/
theorem findRepGo_nil (f : Nat) : findRepGo f [] = [] := by
  cases f <;> rfl

/-- `findRepGo` finds exactly the one match in a pure run of length
at least 9 of a non-newline character. -/
theorem findRepGo_replicate (c : Char) (hn : c ≠ '\n') (n : Nat) (h9 : 9 ≤ n) (f : Nat) :
    findRepGo (f + 1) (List.replicate n c) = [(List.replicate n c, c)] := by
  obtain ⟨m, rfl⟩ : ∃ m, n = m + 1 := ⟨n - 1, by omega⟩
  have hdrop : (List.replicate m c).drop m = [] := by
    have := List.drop_length (List.replicate m c)
    rwa [List.length_replicate] at this
  conv_lhs => rw [List.replicate_succ]
  rw [findRepGo]
  simp only [countLeading_replicate]
  rw [if_pos ⟨hn, by omega⟩]
  rw [hdrop, findRepGo_nil]

/-- `escape_repetition` rewrites a pure run of length at least 9 of a
non-newline character to its `[unit](*count)` form. -/
theorem escape_repetition_replicate (c : Char) (hn : c ≠ '\n') (n : Nat) (h9 : 9 ≤ n) :
    escape_repetition (List.replicate n c) = repReplacement c n := by
  have hne : List.replicate n c ≠ [] := by
    intro h
    have := congrArg List.length h
    simp at this
    omega
  unfold escape_repetition
  rw [show (List.replicate n c).length = n from List.length_replicate n c]
  rw [findRepGo_replicate c hn n h9]
  simp only [List.foldl]
  rw [replaceAll_self _ _ hne]
  congr 1
  simp

/-- `hasNineRun s = false` makes the repetition regex find nothing. -/
theorem findRepGo_eq_nil_of_noRun (f : Nat) :
    ∀ s : Str, hasNineRun s = false → findRepGo f s = [] := by
  induction f with
  | zero => intro s _; rfl
  | succ f ih =>
    intro s h
    cases s with
    | nil => rfl
    | cons c cs =>
      simp only [hasNineRun, Bool.or_eq_false_iff, decide_eq_false_iff_not] at h
      rw [findRepGo]
      rw [if_neg (fun hc => h.1 hc.2)]
      exact ih cs h.2

/-! ## Claim C6 — repetition escaping round trip -/

/-- C6 (amended): (1) for every input without nine consecutive equal
characters *and without an occurrence of the `[unit](*count)` sentinel
pattern*, `unescape_repetition ∘ escape_repetition` is the identity;
(2) a string consisting of a single run of a non-newline character
repeated `n ≥ 9` times is rewritten by `escape_repetition` to
`[unit](*n)` (with keychar-escaped unit) and expanded back to exactly
the original run.  (As stated, the claim fails on sentinel-containing
inputs such as `"[a](*3)"`, on newline runs, and on strings holding
two runs of the same character where `str.replace` rewrites across
runs.) -/
theorem C6_roundtrip :
    (∀ s : Str, hasNineRun s = false → hasRepSentinel s = false →
      unescape_repetition (escape_repetition s) = s) ∧
    (∀ (c : Char) (n : Nat), c ≠ '\n' → 9 ≤ n →
      escape_repetition (List.replicate n c) = repReplacement c n ∧
      unescape_repetition (escape_repetition (List.replicate n c)) = List.replicate n c) := by
  constructor
  · intro s h1 h2
    have hesc : escape_repetition s = s := by
      unfold escape_repetition
      rw [findRepGo_eq_nil_of_noRun (s.length + 1) s h1]
      rfl
    rw [hesc]
    have e2 : findUnRepGo (s.length + 1) none s = [] := by
      have := h2
      unfold hasRepSentinel at this
      simpa [List.isEmpty_iff] using this
    unfold unescape_repetition
    rw [e2]
    rfl
  · intro c n hn h9
    refine ⟨escape_repetition_replicate c hn n h9, ?_⟩
    rw [escape_repetition_replicate c hn n h9]
    exact unescape_repetition_repShape c hn n

/-- C6 witness: round trip on `"hi"` (no long run, no sentinel), and
the run of nine `'a'` rewritten to `"[a](*9)"` and restored. -/
theorem C6_roundtrip_witness :
    unescape_repetition (escape_repetition (str "hi")) = str "hi" ∧
    escape_repetition (List.replicate 9 'a') = repReplacement 'a' 9 ∧
    unescape_repetition (escape_repetition (List.replicate 9 'a')) = List.replicate 9 'a' := by
  refine ⟨C6_roundtrip.1 (str "hi") (by decide) (by decide), ?_, ?_⟩
  · exact (C6_roundtrip.2 'a' 9 (by decide) (by decide)).1
  · exact (C6_roundtrip.2 'a' 9 (by decide) (by decide)).2

/-! ## Claim C7 — ruby escaping round trip -/

/-- C7 (amended): for every input that contains no `<ruby>…</ruby>`
construct and no occurrence of the `[base](^top)` sentinel pattern,
`unescape_ruby ∘ escape_ruby` is the identity.  (As stated the claim
fails: an input containing a ruby construct in non-canonical form —
e.g. without `<rb>` tags — has no sentinel, yet the round trip
normalizes it.) -/
theorem C7_roundtrip (s : Str) (h1 : hasRubyTag s = false)
    (h2 : hasRubySentinel s = false) :
    unescape_ruby (escape_ruby s) = s := by
  have e1 : findRubyGo (s.length + 1) s = [] := by
    have := h1
    unfold hasRubyTag at this
    simpa [List.isEmpty_iff] using this
  have hesc : escape_ruby s = s := by
    unfold escape_ruby
    rw [e1]
    rfl
  rw [hesc]
  have e2 : findUnRubyGo (s.length + 1) none s = [] := by
    have := h2
    unfold hasRubySentinel at this
    simpa [List.isEmpty_iff] using this
  unfold unescape_ruby
  rw [e2]
  rfl

/-- C7 witness: the round trip is the identity on `"hello"`. -/
theorem C7_roundtrip_witness : unescape_ruby (escape_ruby (str "hello")) = str "hello" :=
  C7_roundtrip (str "hello") (by decide) (by decide)

/-- C10 witness: a concrete untranslated episode renders with original
title/notes and empty line paragraphs. -/
theorem C10_html_witness :
    Episode.html { title := str "T", notes := str "N", lines := [{ content := str "orig" }] } =
      List.intercalate (str "\n")
        ((str "<h3>" ++ str "T" ++ str "</h3>") :: (str "<p>" ++ str "N" ++ str "</p>") ::
         str "<hr>" :: [str "<p>" ++ pyOr none [] ++ str "</p>"]) :=
  (C10_html { title := str "T", notes := str "N", lines := [{ content := str "orig" }] }).1
    rfl rfl

/-! ## Claim C2 — retry, rollback, and the fatal bound -/

/-- Every attempt of the retry loop starts either from the pre-attempt
snapshot or from the snapshot followed by the reminder exchange. -/
theorem retryLoop_trace_mem (m : Nat) (remInt : Option Nat) (rem bak : List Str) :
    ∀ (outcomes : List Outcome) (msgs : List Str) (retry cycle : Nat),
      (msgs = bak ∨ msgs = bak ++ rem) →
      ∀ t ∈ (retryLoop (some m) remInt rem bak outcomes msgs retry cycle).trace,
        t = bak ∨ t = bak ++ rem := by
  intro outcomes
  induction outcomes with
  | nil => intro msgs retry cycle hm t ht; simp [retryLoop] at ht
  | cons o rest ih =>
    intro msgs retry cycle hm t ht
    match o with
    | .ok v => simp [retryLoop] at ht; subst ht; exact hm
    | .blocked => simp [retryLoop] at ht; subst ht; exact hm
    | .invalid =>
      simp only [retryLoop] at ht
      by_cases hf : (Option.map (fun x => decide (x < retry + 1)) (some m)).getD false = true
      · rw [if_pos hf] at ht
        simp at ht
        subst ht
        exact hm
      · rw [if_neg hf] at ht
        simp only [List.mem_cons] at ht
        rcases ht with rfl | ht
        · exact hm
        · refine ih _ _ _ ?_ t ht
          unfold finallyStep
          cases remInt with
          | none => simp
          | some r => by_cases hr : r ≤ cycle + 1 <;> simp [hr]

/-- One failed attempt within the retry budget: roll back, run the
`finally` block, and recurse with the retry counter bumped. -/
theorem retryLoop_invalid_step (m : Nat) (remInt : Option Nat) (rem bak : List Str)
    (rest : List Outcome) (msgs : List Str) (retry cycle : Nat) (h : ¬ m < retry + 1) :
    retryLoop (some m) remInt rem bak (Outcome.invalid :: rest) msgs retry cycle =
      { result := (retryLoop (some m) remInt rem bak rest
          (finallyStep remInt rem bak cycle).1 (retry + 1)
          (finallyStep remInt rem bak cycle).2).result
        trace := msgs :: (retryLoop (some m) remInt rem bak rest
          (finallyStep remInt rem bak cycle).1 (retry + 1)
          (finallyStep remInt rem bak cycle).2).trace } := by
  conv_lhs => rw [retryLoop]
  rw [if_neg (by simpa using h)]

/-- Exceeding the retry budget: with `retry + (k + 1) = m + 1`
remaining failures, the loop ends fatally after exactly `k + 1` more
attempts. -/
theorem retryLoop_fatal (m : Nat) (remInt : Option Nat) (rem bak : List Str) :
    ∀ (k retry cycle : Nat) (msgs : List Str) (rest : List Outcome),
      retry + (k + 1) = m + 1 →
      (retryLoop (some m) remInt rem bak (List.replicate (k + 1) Outcome.invalid ++ rest)
          msgs retry cycle).result = LoopEnd.fatal ∧
      (retryLoop (some m) remInt rem bak (List.replicate (k + 1) Outcome.invalid ++ rest)
          msgs retry cycle).trace.length = k + 1 := by
  intro k
  induction k with
  | zero =>
    intro retry cycle msgs rest hr
    have hm : retry = m := by omega
    subst hm
    rw [List.replicate_succ, List.cons_append]
    conv_lhs => rw [retryLoop]
    rw [if_pos (by simp)]
    exact ⟨rfl, by simp [List.replicate, retryLoop]⟩
  | succ k ih =>
    intro retry cycle msgs rest hr
    have hlt : ¬ m < retry + 1 := by omega
    rw [List.replicate_succ, List.cons_append]
    rw [retryLoop_invalid_step m remInt rem bak _ msgs retry cycle hlt]
    have := ih (retry + 1) (finallyStep remInt rem bak cycle).2
      (finallyStep remInt rem bak cycle).1 rest (by omega)
    exact ⟨this.1, by simpa using this.2⟩

/-- Staying within the retry budget: with `k ≤ m` leading failures, a
subsequent validated response is returned after exactly `k + 1`
attempts. -/
theorem retryLoop_success (m : Nat) (remInt : Option Nat) (rem bak : List Str) :
    ∀ (k retry cycle : Nat) (msgs : List Str) (v : Str) (rest : List Outcome),
      retry + k ≤ m →
      (retryLoop (some m) remInt rem bak
          (List.replicate k Outcome.invalid ++ Outcome.ok v :: rest)
          msgs retry cycle).result = LoopEnd.value v ∧
      (retryLoop (some m) remInt rem bak
          (List.replicate k Outcome.invalid ++ Outcome.ok v :: rest)
          msgs retry cycle).trace.length = k + 1 := by
  intro k
  induction k with
  | zero =>
    intro retry cycle msgs v rest hr
    simp [retryLoop]
  | succ k ih =>
    intro retry cycle msgs v rest hr
    have hlt : ¬ m < retry + 1 := by omega
    rw [List.replicate_succ, List.cons_append]
    rw [retryLoop_invalid_step m remInt rem bak _ msgs retry cycle hlt]
    have := ih (retry + 1) (finallyStep remInt rem bak cycle).2
      (finallyStep remInt rem bak cycle).1 v rest (by omega)
    exact ⟨this.1, by simpa using this.2⟩

/-- One failed Gemini attempt within the retry budget: reset (to the
pristine snapshot when not yet aliased, a no-op keeping the appended
messages once aliased), run the `finally` block, and recurse aliased
with the retry counter bumped. -/
theorem geminiRetryLoop_invalid_step (m : Nat) (remInt : Option Nat) (rem bak junk : List Str)
    (rest : List (Outcome × List Str)) (msgs : List Str) (aliased : Bool)
    (retry cycle : Nat) (h : ¬ m < retry + 1) :
    geminiRetryLoop (some m) remInt rem bak ((Outcome.invalid, junk) :: rest) msgs aliased
        retry cycle =
      { result := (geminiRetryLoop (some m) remInt rem bak rest
          (finallyStep remInt rem (if aliased then msgs ++ junk else bak) cycle).1 true
          (retry + 1)
          (finallyStep remInt rem (if aliased then msgs ++ junk else bak) cycle).2).result
        trace := msgs :: (geminiRetryLoop (some m) remInt rem bak rest
          (finallyStep remInt rem (if aliased then msgs ++ junk else bak) cycle).1 true
          (retry + 1)
          (finallyStep remInt rem (if aliased then msgs ++ junk else bak) cycle).2).trace } := by
  conv_lhs => rw [geminiRetryLoop]
  rw [if_neg (by simpa using h)]

/-- A failed Gemini attempt that exhausts the budget ends the loop
fatally at once. -/
theorem geminiRetryLoop_invalid_fatal (m : Nat) (remInt : Option Nat) (rem bak junk : List Str)
    (rest : List (Outcome × List Str)) (msgs : List Str) (aliased : Bool)
    (retry cycle : Nat) (h : m < retry + 1) :
    geminiRetryLoop (some m) remInt rem bak ((Outcome.invalid, junk) :: rest) msgs aliased
        retry cycle = { result := LoopEnd.fatal, trace := [msgs] } := by
  conv_lhs => rw [geminiRetryLoop]
  rw [if_pos (by simpa using h)]

/-- Trace of the *first* Gemini failure: the reset really lands on the
pristine snapshot (that attempt's appended messages are discarded). -/
theorem geminiRetryLoop_first_trace (m : Nat) (remInt : Option Nat) (rem bak junk : List Str)
    (rest : List (Outcome × List Str)) (msgs : List Str) (retry cycle : Nat)
    (h : ¬ m < retry + 1) :
    (geminiRetryLoop (some m) remInt rem bak ((Outcome.invalid, junk) :: rest) msgs false
        retry cycle).trace =
      msgs :: (geminiRetryLoop (some m) remInt rem bak rest
        (finallyStep remInt rem bak cycle).1 true (retry + 1)
        (finallyStep remInt rem bak cycle).2).trace := by
  rw [geminiRetryLoop_invalid_step m remInt rem bak junk rest msgs false retry cycle h]
  rfl

/-- Trace of a Gemini failure *after* aliasing: the reset is a no-op,
so the messages the backend appended during the failed attempt stay. -/
theorem geminiRetryLoop_aliased_trace (m : Nat) (remInt : Option Nat) (rem bak junk : List Str)
    (rest : List (Outcome × List Str)) (msgs : List Str) (retry cycle : Nat)
    (h : ¬ m < retry + 1) :
    (geminiRetryLoop (some m) remInt rem bak ((Outcome.invalid, junk) :: rest) msgs true
        retry cycle).trace =
      msgs :: (geminiRetryLoop (some m) remInt rem bak rest
        (finallyStep remInt rem (msgs ++ junk) cycle).1 true (retry + 1)
        (finallyStep remInt rem (msgs ++ junk) cycle).2).trace := by
  rw [geminiRetryLoop_invalid_step m remInt rem bak junk rest msgs true retry cycle h]
  rfl

/-- With at least one attempt left, the Gemini loop's next recorded
attempt starts from the current message state. -/
theorem geminiRetryLoop_trace_head (maxR remInt : Option Nat) (rem bak : List Str)
    (a : Outcome × List Str) (rest : List (Outcome × List Str)) (msgs : List Str)
    (aliased : Bool) (retry cycle : Nat) :
    (geminiRetryLoop maxR remInt rem bak (a :: rest) msgs aliased retry cycle).trace.head? =
      some msgs := by
  obtain ⟨o, junk⟩ := a
  cases o with
  | ok v => rfl
  | blocked => rfl
  | invalid =>
    simp only [geminiRetryLoop]
    by_cases hf : ((maxR.map fun x => decide (x < retry + 1)).getD false) = true
    · rw [if_pos hf]
      rfl
    · rw [if_neg hf]
      rfl

/-- Exceeding the Gemini retry budget: with `retry + as.length = m + 1`
remaining failed attempts, the loop ends fatally after exactly
`as.length` more attempts, whatever the backend appended. -/
theorem geminiRetryLoop_fatal (m : Nat) (remInt : Option Nat) (rem bak : List Str) :
    ∀ (as : List (Outcome × List Str)) (retry cycle : Nat) (msgs : List Str) (aliased : Bool)
      (rest : List (Outcome × List Str)),
      (∀ a ∈ as, a.1 = Outcome.invalid) → retry + as.length = m + 1 → as ≠ [] →
      (geminiRetryLoop (some m) remInt rem bak (as ++ rest) msgs aliased retry cycle).result =
        LoopEnd.fatal ∧
      (geminiRetryLoop (some m) remInt rem bak (as ++ rest) msgs aliased
          retry cycle).trace.length = as.length := by
  intro as
  induction as with
  | nil => intro retry cycle msgs aliased rest _ _ hne; exact absurd rfl hne
  | cons a as ih =>
    intro retry cycle msgs aliased rest hinv hlen _
    obtain ⟨o, junk⟩ := a
    have ho : o = Outcome.invalid := hinv (o, junk) (List.mem_cons_self _ _)
    subst ho
    have hlen1 : retry + (as.length + 1) = m + 1 := by simpa using hlen
    rw [List.cons_append]
    by_cases hnil : as = []
    · subst hnil
      have hm : m < retry + 1 := by
        simp only [List.length_nil] at hlen1
        omega
      rw [List.nil_append,
        geminiRetryLoop_invalid_fatal m remInt rem bak junk rest msgs aliased retry cycle hm]
      exact ⟨rfl, by simp⟩
    · have hpos : ¬ as.length = 0 := fun h0 => hnil (List.length_eq_zero.mp h0)
      have hlt : ¬ m < retry + 1 := by omega
      rw [geminiRetryLoop_invalid_step m remInt rem bak junk (as ++ rest) msgs aliased
        retry cycle hlt]
      have := ih (retry + 1)
        (finallyStep remInt rem (if aliased then msgs ++ junk else bak) cycle).2
        (finallyStep remInt rem (if aliased then msgs ++ junk else bak) cycle).1 true rest
        (fun a ha => hinv a (List.mem_cons_of_mem _ ha)) (by omega) hnil
      exact ⟨this.1, by simpa using this.2⟩

/-- Staying within the Gemini retry budget: after `as.length ≤ m`
leading failed attempts, a subsequent validated response is returned
after exactly `as.length + 1` attempts. -/
theorem geminiRetryLoop_success (m : Nat) (remInt : Option Nat) (rem bak : List Str) :
    ∀ (as : List (Outcome × List Str)) (retry cycle : Nat) (msgs : List Str) (aliased : Bool)
      (v : Str) (junk : List Str) (rest : List (Outcome × List Str)),
      (∀ a ∈ as, a.1 = Outcome.invalid) → retry + as.length ≤ m →
      (geminiRetryLoop (some m) remInt rem bak (as ++ (Outcome.ok v, junk) :: rest)
          msgs aliased retry cycle).result = LoopEnd.value v ∧
      (geminiRetryLoop (some m) remInt rem bak (as ++ (Outcome.ok v, junk) :: rest)
          msgs aliased retry cycle).trace.length = as.length + 1 := by
  intro as
  induction as with
  | nil =>
    intro retry cycle msgs aliased v junk rest _ _
    rw [List.nil_append]
    exact ⟨rfl, rfl⟩
  | cons a as ih =>
    intro retry cycle msgs aliased v junk rest hinv hlen
    obtain ⟨o, junk1⟩ := a
    have ho : o = Outcome.invalid := hinv (o, junk1) (List.mem_cons_self _ _)
    subst ho
    have hlen1 : retry + (as.length + 1) ≤ m := by simpa using hlen
    have hlt : ¬ m < retry + 1 := by omega
    rw [List.cons_append,
      geminiRetryLoop_invalid_step m remInt rem bak junk1 (as ++ (Outcome.ok v, junk) :: rest)
        msgs aliased retry cycle hlt]
    have := ih (retry + 1)
      (finallyStep remInt rem (if aliased then msgs ++ junk1 else bak) cycle).2
      (finallyStep remInt rem (if aliased then msgs ++ junk1 else bak) cycle).1 true v junk
      rest (fun a ha => hinv a (List.mem_cons_of_mem _ ha)) (by omega)
    exact ⟨this.1, by simpa using this.2⟩

/-- C2 (amended): the retry accounting is common to both backends —
retries continue while at most `max_retries` attempts have failed;
once more than `max_retries` attempts fail the loop ends fatally
(`RuntimeError`) after exactly `max_retries + 1` attempts, and a
validated response within the budget is returned — but the rollback is
not.  In `gpt.py` every failure restores a fresh copy of the snapshot,
so every attempt starts from the snapshot or from the snapshot
followed by the reminder exchange.  In `gemini.py` the reset assigns
the snapshot object itself without copying, so only the first failure
rolls back — the second attempt starts from the snapshot, possibly
followed by the reminder — and afterwards the messages a failed
attempt appended persist: with reminders off, the third attempt starts
from the snapshot plus whatever the second (failed) attempt appended,
not from the snapshot. -/
theorem C2_retry_rollback (m : Nat) (remInt : Option Nat) (rem bak : List Str) (cycle : Nat) :
    (∀ (outcomes : List Outcome),
      ∀ t ∈ (translateRetry (some m) remInt rem bak cycle outcomes).trace,
        t = bak ∨ t = bak ++ rem) ∧
    (∀ (k : Nat) (rest : List Outcome), m < k →
      (translateRetry (some m) remInt rem bak cycle
          (List.replicate k Outcome.invalid ++ rest)).result = LoopEnd.fatal ∧
      (translateRetry (some m) remInt rem bak cycle
          (List.replicate k Outcome.invalid ++ rest)).trace.length = m + 1) ∧
    (∀ (k : Nat) (v : Str) (rest : List Outcome), k ≤ m →
      (translateRetry (some m) remInt rem bak cycle
          (List.replicate k Outcome.invalid ++ Outcome.ok v :: rest)).result =
        LoopEnd.value v ∧
      (translateRetry (some m) remInt rem bak cycle
          (List.replicate k Outcome.invalid ++ Outcome.ok v :: rest)).trace.length = k + 1) ∧
    (∀ (as rest : List (Outcome × List Str)),
      (∀ a ∈ as, a.1 = Outcome.invalid) → m < as.length →
      (geminiTranslateRetry (some m) remInt rem bak cycle (as ++ rest)).result =
        LoopEnd.fatal ∧
      (geminiTranslateRetry (some m) remInt rem bak cycle (as ++ rest)).trace.length = m + 1) ∧
    (∀ (as : List (Outcome × List Str)) (v : Str) (junk : List Str)
        (rest : List (Outcome × List Str)),
      (∀ a ∈ as, a.1 = Outcome.invalid) → as.length ≤ m →
      (geminiTranslateRetry (some m) remInt rem bak cycle
          (as ++ (Outcome.ok v, junk) :: rest)).result = LoopEnd.value v ∧
      (geminiTranslateRetry (some m) remInt rem bak cycle
          (as ++ (Outcome.ok v, junk) :: rest)).trace.length = as.length + 1) ∧
    (∀ (j1 : List Str) (a : Outcome × List Str) (rest : List (Outcome × List Str)), 1 ≤ m →
      (geminiTranslateRetry (some m) remInt rem bak cycle
          ((Outcome.invalid, j1) :: a :: rest)).trace.tail.head? = some bak ∨
      (geminiTranslateRetry (some m) remInt rem bak cycle
          ((Outcome.invalid, j1) :: a :: rest)).trace.tail.head? = some (bak ++ rem)) ∧
    (∀ (j1 j2 j3 : List Str) (v : Str) (rest : List (Outcome × List Str)), 2 ≤ m →
      (geminiTranslateRetry (some m) none rem bak cycle
          ((Outcome.invalid, j1) :: (Outcome.invalid, j2) ::
            (Outcome.ok v, j3) :: rest)).trace = [bak, bak, bak ++ j2]) := by
  refine ⟨?_, ?_, ?_, ?_, ?_, ?_, ?_⟩
  · intro outcomes t ht
    exact retryLoop_trace_mem m remInt rem bak outcomes bak 0 cycle (Or.inl rfl) t ht
  · intro k rest hk
    obtain ⟨j, rfl⟩ : ∃ j, k = (m + j) + 1 := ⟨k - m - 1, by omega⟩
    have hsplit : List.replicate ((m + j) + 1) Outcome.invalid =
        List.replicate (m + 1) Outcome.invalid ++ List.replicate j Outcome.invalid := by
      rw [← List.replicate_add]
      congr 1
      omega
    unfold translateRetry
    rw [hsplit, List.append_assoc]
    exact retryLoop_fatal m remInt rem bak m 0 cycle bak _ (by omega)
  · intro k v rest hk
    exact retryLoop_success m remInt rem bak k 0 cycle bak v rest (by omega)
  · intro as rest hinv hlen
    have htake : (as.take (m + 1)).length = m + 1 := by
      rw [List.length_take]
      omega
    have hne : as.take (m + 1) ≠ [] := by
      intro h0
      rw [h0] at htake
      simp only [List.length_nil] at htake
      omega
    have hsplit : as.take (m + 1) ++ as.drop (m + 1) = as := List.take_append_drop _ _
    unfold geminiTranslateRetry
    rw [← hsplit, List.append_assoc]
    have hfat := geminiRetryLoop_fatal m remInt rem bak (as.take (m + 1)) 0 cycle bak false
      (as.drop (m + 1) ++ rest) (fun a ha => hinv a (List.take_subset _ _ ha)) (by omega) hne
    exact ⟨hfat.1, by rw [hfat.2]; exact htake⟩
  · intro as v junk rest hinv hlen
    unfold geminiTranslateRetry
    exact geminiRetryLoop_success m remInt rem bak as 0 cycle bak false v junk rest hinv
      (by omega)
  · intro j1 a rest h1
    unfold geminiTranslateRetry
    rw [geminiRetryLoop_first_trace m remInt rem bak j1 (a :: rest) bak 0 cycle (by omega)]
    rw [List.tail_cons]
    rw [geminiRetryLoop_trace_head (some m) remInt rem bak a rest
      (finallyStep remInt rem bak cycle).1 true (0 + 1) (finallyStep remInt rem bak cycle).2]
    cases remInt with
    | none => exact Or.inl rfl
    | some r =>
      by_cases hr : r ≤ cycle + 1
      · exact Or.inr (by simp [finallyStep, hr])
      · exact Or.inl (by simp [finallyStep, hr])
  · intro j1 j2 j3 v rest h2
    unfold geminiTranslateRetry
    rw [geminiRetryLoop_first_trace m none rem bak j1
      ((Outcome.invalid, j2) :: (Outcome.ok v, j3) :: rest) bak 0 cycle (by omega)]
    rw [geminiRetryLoop_aliased_trace m none rem bak j2 ((Outcome.ok v, j3) :: rest)
      (finallyStep none rem bak cycle).1 (0 + 1) (finallyStep none rem bak cycle).2 (by omega)]
    rfl

/-- C2 witness: with `max_retries = 2`, three straight failures end
fatally after three attempts on either backend; and on the Gemini side
with reminders off, two failed attempts (appending `"x"` resp. `"y"`)
followed by a valid response yield attempt starting states
`[snapshot, snapshot, snapshot ++ "y"]` — the first failure rolled
back, the second did not. -/
theorem C2_retry_rollback_witness :
    ((translateRetry (some 2) (some 3) [str "R"] [str "B"] 0
        (List.replicate 3 Outcome.invalid ++ [])).result = LoopEnd.fatal ∧
      (translateRetry (some 2) (some 3) [str "R"] [str "B"] 0
        (List.replicate 3 Outcome.invalid ++ [])).trace.length = 2 + 1) ∧
    ((geminiTranslateRetry (some 2) (some 3) [str "R"] [str "B"] 0
        ([(Outcome.invalid, [str "x"]), (Outcome.invalid, [str "x"]),
          (Outcome.invalid, [str "x"])] ++ [])).result = LoopEnd.fatal) ∧
    ((geminiTranslateRetry (some 2) none [str "R"] [str "B"] 0
        ((Outcome.invalid, [str "x"]) :: (Outcome.invalid, [str "y"]) ::
          (Outcome.ok (str "v"), []) :: [])).trace =
      [[str "B"], [str "B"], [str "B"] ++ [str "y"]]) :=
  ⟨(C2_retry_rollback 2 (some 3) [str "R"] [str "B"] 0).2.1 3 [] (by decide),
   ((C2_retry_rollback 2 (some 3) [str "R"] [str "B"] 0).2.2.2.1
      [(Outcome.invalid, [str "x"]), (Outcome.invalid, [str "x"]), (Outcome.invalid, [str "x"])]
      [] (by decide) (by decide)).1,
   (C2_retry_rollback 2 (some 3) [str "R"] [str "B"] 0).2.2.2.2.2.2
      [str "x"] [str "y"] [] (str "v") [] (by decide)⟩

/-! ## Claim C3 — metadata caching -/

/-- C3 (amended): under the fully-translated early exit nothing is
sent and nothing changes.  Otherwise: the chapter title is cached —
once populated the chapter payload is not sent and the chapter is
unchanged; book metadata is cached all-or-nothing — when `title`,
`description` (and `series`, when truthy) translations are all
populated the book payload is not sent and the book is unchanged, but
when any is missing the whole three-field payload is re-sent and all
three translations overwritten; and the episode payload is always sent,
its title and notes translations always overwritten with the fresh
response. -/
theorem C3_metadata_caching (cfg : TrConfig) (trMeta : MetaDict → MetaDict)
    (trLines : List Str → List Str) (bk : Book) (ch : Chapter) (ep : Episode) :
    (ep.fully_translated = true → cfg.skip = true →
      (translateModel cfg trMeta trLines (some bk) (some ch) ep).book = some bk ∧
      (translateModel cfg trMeta trLines (some bk) (some ch) ep).chapter = some ch ∧
      (translateModel cfg trMeta trLines (some bk) (some ch) ep).episode = ep ∧
      (translateModel cfg trMeta trLines (some bk) (some ch) ep).sentMeta = []) ∧
    (¬(ep.fully_translated = true ∧ cfg.skip = true) →
      (ch.title_translated.isNone = false → bookNeedsMeta bk = false →
        (translateModel cfg trMeta trLines (some bk) (some ch) ep).book = some bk ∧
        (translateModel cfg trMeta trLines (some bk) (some ch) ep).chapter = some ch ∧
        (translateModel cfg trMeta trLines (some bk) (some ch) ep).sentMeta =
          [episodeMetaReq ep]) ∧
      ((translateModel cfg trMeta trLines (some bk) (some ch) ep).episode.title_translated =
          mdGet (trMeta (episodeMetaReq ep)) (str "title") ∧
       (translateModel cfg trMeta trLines (some bk) (some ch) ep).episode.notes_translated =
          mdGet (trMeta (episodeMetaReq ep)) (str "notes")) ∧
      (bookNeedsMeta bk = true →
        (translateModel cfg trMeta trLines (some bk) (some ch) ep).sentMeta.head? =
          some (bookMetaReq bk) ∧
        (translateModel cfg trMeta trLines (some bk) (some ch) ep).book =
          some (applyBookMeta (trMeta (bookMetaReq bk)) bk))) := by
  constructor
  · intro h1 h2
    simp [translateModel, h1, h2]
  · intro hno
    have hcond : ¬ (ep.fully_translated = true ∧ cfg.skip = true) := hno
    refine ⟨?_, ?_, ?_⟩
    · intro hch hbk
      simp [translateModel, hcond, metaPhase, hch, hbk, applyEpisodeMeta]
    · simp [translateModel, hcond, metaPhase, applyEpisodeMeta]
    · intro hbk
      simp [translateModel, hcond, metaPhase, hbk]

/-! ## Claim C4 — empty strings in a validated response -/

/-- Without a repetition sentinel, `unescape_repetition` is the
identity. -/
theorem unescape_repetition_id (s : Str) (h : hasRepSentinel s = false) :
    unescape_repetition s = s := by
  have e : findUnRepGo (s.length + 1) none s = [] := by
    have := h
    unfold hasRepSentinel at this
    simpa [List.isEmpty_iff] using this
  unfold unescape_repetition
  rw [e]
  rfl

/-- Without a ruby sentinel, `unescape_ruby` is the identity. -/
theorem unescape_ruby_id (s : Str) (h : hasRubySentinel s = false) :
    unescape_ruby s = s := by
  have e : findUnRubyGo (s.length + 1) none s = [] := by
    have := h
    unfold hasRubySentinel at this
    simpa [List.isEmpty_iff] using this
  unfold unescape_ruby
  rw [e]
  rfl

/-- Python's `'\n'.join(...)`: the raw response text whose lines are
the given strings. -/
def joinNL : List Str → Str
  | [] => []
  | [v] => v
  | v :: rest => v ++ '\n' :: joinNL rest

/-- Splitting a separator-free string returns it whole. -/
theorem splitOnChar_no_sep (sep : Char) (v : Str) (h : sep ∉ v) :
    splitOnChar sep v = [v] := by
  induction v with
  | nil => rfl
  | cons c cs ih =>
    simp only [List.mem_cons, not_or] at h
    simp only [splitOnChar]
    rw [if_neg (fun hc => h.1 hc.symm)]
    rw [ih h.2]

/-- Splitting peels off a separator-free head. -/
theorem splitOnChar_app (sep : Char) (x rest : Str) (h : sep ∉ x) :
    splitOnChar sep (x ++ sep :: rest) = x :: splitOnChar sep rest := by
  induction x with
  | nil => simp [splitOnChar]
  | cons c cs ih =>
    simp only [List.mem_cons, not_or] at h
    simp only [List.cons_append, splitOnChar]
    rw [if_neg (fun hc => h.1 hc.symm)]
    rw [show splitOnChar sep (cs.append (sep :: rest)) = cs :: splitOnChar sep rest from
      ih h.2]

/-- Splitting a joined response recovers the lines (when none of them
contains a newline). -/
theorem splitOnChar_joinNL (vals : List Str) (hne : vals ≠ [])
    (hnl : ∀ v ∈ vals, '\n' ∉ v) :
    splitOnChar '\n' (joinNL vals) = vals := by
  induction vals with
  | nil => exact absurd rfl hne
  | cons v rest ih =>
    cases rest with
    | nil => exact splitOnChar_no_sep '\n' v (hnl v (by simp))
    | cons w t =>
      show splitOnChar '\n' (v ++ '\n' :: joinNL (w :: t)) = _
      rw [splitOnChar_app '\n' v _ (hnl v (by simp))]
      rw [ih (by simp) (fun u hu => hnl u (by simp [hu]))]

/-- Removing the empty entries strictly shrinks a list containing one. -/
theorem filter_length_lt (l : List Str) (h : ∃ v ∈ l, v = []) :
    (l.filter (· ≠ [])).length < l.length := by
  induction l with
  | nil => simp at h
  | cons x xs ih =>
    by_cases hx : x = []
    · subst hx
      simp only [List.filter_cons]
      rw [if_neg (by simp)]
      have := List.length_filter_le (· ≠ []) xs
      simp only [List.length_cons]
      omega
    · obtain ⟨v, hv, hveq⟩ := h
      rcases List.mem_cons.mp hv with rfl | hvmem
      · exact absurd hveq hx
      · have := ih ⟨v, hvmem, hveq⟩
        simp only [List.filter_cons]
        rw [if_pos (by simpa using hx)]
        simp only [List.length_cons]
        omega

/-- C4 (amended): a response line that is non-empty — even if it is
whitespace only — passes the falsy filter, so a response whose lines
match the request count is accepted verbatim; but a zero-length
response line is removed by the filter before the count check, making
the count check fail, so the attempt is rejected (and hence retried by
the surrounding loop) instead of being accepted with a warning. -/
theorem C4_empty_response (convertRuby : Bool) :
    (∀ (vals req : List Str), vals ≠ [] → vals.length = req.length →
      (∀ v ∈ vals, v ≠ []) → (∀ v ∈ vals, '\n' ∉ v) →
      (∀ v ∈ vals, replaceAll v (str "\\n") (str "\n") = v) →
      hasRubySentinel (joinNL vals) = false →
      hasRepSentinel (joinNL vals) = false →
      processListResp convertRuby (joinNL vals) req = some vals) ∧
    (∀ (vals req : List Str), vals.length = req.length →
      (∃ v ∈ vals, v = []) → (∀ v ∈ vals, '\n' ∉ v) →
      (∀ v ∈ vals, replaceAll v (str "\\n") (str "\n") = v) →
      hasRubySentinel (joinNL vals) = false →
      hasRepSentinel (joinNL vals) = false →
      processListResp convertRuby (joinNL vals) req = none) := by
  have hcommon : ∀ (vals : List Str), vals ≠ [] →
      (∀ v ∈ vals, '\n' ∉ v) →
      (∀ v ∈ vals, replaceAll v (str "\\n") (str "\n") = v) →
      hasRubySentinel (joinNL vals) = false →
      hasRepSentinel (joinNL vals) = false →
      ((splitOnChar '\n'
        (unescape_repetition
          (if convertRuby then unescape_ruby (joinNL vals) else joinNL vals))).map
            (fun x => replaceAll x (str "\\n") (str "\n"))) = vals := by
    intro vals hne hnl hrep hrb hrs
    have h1 : (if convertRuby then unescape_ruby (joinNL vals) else joinNL vals) =
        joinNL vals := by
      cases convertRuby <;> simp [unescape_ruby_id _ hrb]
    rw [h1, unescape_repetition_id _ hrs, splitOnChar_joinNL vals hne hnl]
    calc vals.map (fun x => replaceAll x (str "\\n") (str "\n"))
        = vals.map id := List.map_congr_left (fun v hv => hrep v hv)
      _ = vals := List.map_id vals
  constructor
  · intro vals req hne hlen hnonempty hnl hrep hrb hrs
    unfold processListResp
    dsimp only
    rw [hcommon vals hne hnl hrep hrb hrs]
    rw [List.filter_eq_self.mpr (fun v hv => by simpa using hnonempty v hv)]
    rw [if_pos hlen]
  · intro vals req hlen hempty hnl hrep hrb hrs
    have hne : vals ≠ [] := by
      obtain ⟨v, hv, -⟩ := hempty
      exact fun h => by simp [h] at hv
    unfold processListResp
    dsimp only
    rw [hcommon vals hne hnl hrep hrb hrs]
    rw [if_neg (by have := filter_length_lt vals hempty; omega)]

/-- C4 witness: the two-line response `"x\n "` (second line a single
space) is accepted for a two-line request and the blank-flag holds for
the recorded value, while the response `"x\n"` with an empty second
line is rejected. -/
theorem C4_empty_response_witness :
    processListResp true (joinNL [str "x", str " "]) [str "a", str "b"] =
      some [str "x", str " "] ∧
    isBlank (str " ") = true ∧
    processListResp true (joinNL [str "x", []]) [str "a", str "b"] = none := by
  refine ⟨?_, by decide, ?_⟩
  · exact (C4_empty_response true).1 [str "x", str " "] [str "a", str "b"]
      (by decide) (by decide) (by decide) (by decide) (by decide) (by decide) (by decide)
  · exact (C4_empty_response true).2 [str "x", []] [str "a", str "b"]
      (by decide) (by decide) (by decide) (by decide) (by decide) (by decide)

/-! ## Claims C1 and C5 — the line-batching loop -/

/-- `modifyAt` preserves length. -/
theorem modifyAt_length (f : Line → Line) :
    ∀ (n : Nat) (ls : List Line), (modifyAt f n ls).length = ls.length := by
  intro n
  induction n with
  | zero => intro ls; cases ls <;> rfl
  | succ n ih =>
    intro ls
    cases ls with
    | nil => rfl
    | cons x xs => simp [modifyAt, ih]

/-- `modifyAt` leaves other indices unchanged. -/
theorem modifyAt_getElem?_ne (f : Line → Line) :
    ∀ (n j : Nat) (ls : List Line), j ≠ n → (modifyAt f n ls)[j]? = ls[j]? := by
  intro n
  induction n with
  | zero =>
    intro j ls hj
    cases ls with
    | nil => rfl
    | cons x xs =>
      obtain ⟨j, rfl⟩ : ∃ i, j = i + 1 := ⟨j - 1, by omega⟩
      simp [modifyAt]
  | succ n ih =>
    intro j ls hj
    cases ls with
    | nil => rfl
    | cons x xs =>
      cases j with
      | zero => simp [modifyAt]
      | succ j => simp [modifyAt, ih j xs (by omega)]

/-- `modifyAt` maps the element at its index. -/
theorem modifyAt_getElem?_self (f : Line → Line) :
    ∀ (n : Nat) (ls : List Line), (modifyAt f n ls)[n]? = (ls[n]?).map f := by
  intro n
  induction n with
  | zero => intro ls; cases ls <;> simp [modifyAt]
  | succ n ih =>
    intro ls
    cases ls with
    | nil => rfl
    | cons x xs => simp [modifyAt, ih xs]

/-- `modifyAt` below an index does not change the dropped tail. -/
theorem modifyAt_drop (f : Line → Line) :
    ∀ (j n : Nat) (ls : List Line), j < n → (modifyAt f j ls).drop n = ls.drop n := by
  intro j
  induction j with
  | zero =>
    intro n ls hn
    cases ls with
    | nil => rfl
    | cons x xs =>
      obtain ⟨n, rfl⟩ : ∃ i, n = i + 1 := ⟨n - 1, by omega⟩
      simp [modifyAt]
  | succ j ih =>
    intro n ls hn
    cases ls with
    | nil => rfl
    | cons x xs =>
      obtain ⟨n, rfl⟩ : ∃ i, n = i + 1 := ⟨n - 1, by omega⟩
      simp [modifyAt, ih n xs (by omega)]

/-- `applyBatch` preserves length. -/
theorem applyBatch_length (name : Str) :
    ∀ (idxs : List Nat) (vs : List Str) (ls : List Line),
      (applyBatch name ls idxs vs).length = ls.length := by
  intro idxs
  induction idxs with
  | nil => intro vs ls; rfl
  | cons j idxs ih =>
    intro vs ls
    cases vs with
    | nil => rfl
    | cons v vs =>
      show (applyBatch name (modifyAt (assignLine name v) j ls) idxs vs).length = _
      rw [ih vs, modifyAt_length]

/-- `applyBatch` leaves indices outside the batch unchanged. -/
theorem applyBatch_not_mem (name : Str) :
    ∀ (idxs : List Nat) (vs : List Str) (ls : List Line) (j : Nat), j ∉ idxs →
      (applyBatch name ls idxs vs)[j]? = ls[j]? := by
  intro idxs
  induction idxs with
  | nil => intro vs ls j _; rfl
  | cons i idxs ih =>
    intro vs ls j hj
    simp only [List.mem_cons, not_or] at hj
    cases vs with
    | nil => rfl
    | cons v vs =>
      show (applyBatch name (modifyAt (assignLine name v) i ls) idxs vs)[j]? = _
      rw [ih vs _ j hj.2, modifyAt_getElem?_ne _ i j ls hj.1]

/-- `applyBatch` assigns each batched index its paired value (indices
strictly increasing, hence distinct). -/
theorem applyBatch_zip_mem (name : Str) :
    ∀ (idxs : List Nat) (vs : List Str) (ls : List Line),
      List.Pairwise (· < ·) idxs →
      ∀ j v, (j, v) ∈ idxs.zip vs →
        (applyBatch name ls idxs vs)[j]? = (ls[j]?).map (assignLine name v) := by
  intro idxs
  induction idxs with
  | nil => intro vs ls _ j v hm; simp [List.zip] at hm
  | cons i idxs ih =>
    intro vs ls hp j v hm
    cases vs with
    | nil => simp [List.zip] at hm
    | cons w vs =>
      rw [List.zip_cons_cons, List.mem_cons] at hm
      have hstep : applyBatch name ls (i :: idxs) (w :: vs) =
          applyBatch name (modifyAt (assignLine name w) i ls) idxs vs := rfl
      rcases hm with heq | hm
      · cases heq
        rw [hstep]
        rw [applyBatch_not_mem name idxs vs _ i
          (fun hmem => by
            have := (List.pairwise_cons.mp hp).1 i hmem
            omega)]
        exact modifyAt_getElem?_self _ i ls
      · have hj : i ≠ j := by
          have hij := (List.pairwise_cons.mp hp).1 j (List.of_mem_zip hm).1
          omega
        rw [hstep]
        rw [ih vs _ (List.pairwise_cons.mp hp).2 j v hm]
        rw [modifyAt_getElem?_ne _ i j ls (fun h => hj h.symm)]

/-- `applyBatch` with indices below `n` does not change the dropped
tail. -/
theorem applyBatch_drop (name : Str) :
    ∀ (idxs : List Nat) (vs : List Str) (ls : List Line) (n : Nat),
      (∀ x ∈ idxs, x < n) →
      (applyBatch name ls idxs vs).drop n = ls.drop n := by
  intro idxs
  induction idxs with
  | nil => intro vs ls n _; rfl
  | cons i idxs ih =>
    intro vs ls n hb
    cases vs with
    | nil => rfl
    | cons v vs =>
      show (applyBatch name (modifyAt (assignLine name v) i ls) idxs vs).drop n = _
      rw [ih vs _ n (fun x hx => hb x (by simp [hx]))]
      exact modifyAt_drop _ i n ls (hb i (by simp))

/-- Every member of a list pairs with some value of an equally long
value list in the zip. -/
theorem mem_zip_of_mem_left :
    ∀ (idxs : List Nat) (vs : List Str), idxs.length = vs.length →
      ∀ j ∈ idxs, ∃ v, (j, v) ∈ idxs.zip vs := by
  intro idxs
  induction idxs with
  | nil => intro vs _ j hj; simp at hj
  | cons i idxs ih =>
    intro vs hlen j hj
    cases vs with
    | nil => simp at hlen
    | cons w vs =>
      rcases List.mem_cons.mp hj with rfl | hj
      · exact ⟨w, by simp⟩
      · obtain ⟨v, hv⟩ := ih vs (by simpa using hlen) j hj
        exact ⟨v, by simp [hv]⟩

/-- The end-of-episode flush assigns every pending index its paired
value and leaves everything else unchanged. -/
theorem lineFlush_spec (tr : List Str → List Str) (name : Str)
    (htr : ∀ l, (tr l).length = l.length) (ls : List Line) (idxs : List Nat)
    (cts : List Str) (acc : List (List Str)) (hp : List.Pairwise (· < ·) idxs)
    (hlen : idxs.length = cts.length) :
    (lineFlush tr name ls idxs cts acc).1.length = ls.length ∧
    ∀ j : Nat,
      (j ∈ idxs → ∃ v, (lineFlush tr name ls idxs cts acc).1[j]? =
        (ls[j]?).map (assignLine name v)) ∧
      (j ∉ idxs → (lineFlush tr name ls idxs cts acc).1[j]? = ls[j]?) := by
  by_cases hne : idxs = []
  · subst hne
    simp [lineFlush]
  · unfold lineFlush
    rw [if_pos hne]
    refine ⟨applyBatch_length name idxs (tr cts) ls, fun j => ⟨?_, ?_⟩⟩
    · intro hj
      obtain ⟨v, hv⟩ := mem_zip_of_mem_left idxs (tr cts) (by rw [htr cts, hlen]) j hj
      exact ⟨v, applyBatch_zip_mem name idxs (tr cts) ls hp j v hv⟩
    · intro hj
      exact applyBatch_not_mem name idxs (tr cts) ls j hj

/-- Invariant of the batching loop: every pending index, and every
eligible line at or beyond the current position, ends up assigned a
value (as `translated` and under the backend's key in `candidates`);
every other line is returned unchanged. -/
theorem lineLoop_assign (tr : List Str → List Str) (name : Str) (skip : Bool) (bsz : Nat)
    (htr : ∀ l, (tr l).length = l.length) :
    ∀ (f : Nat) (ls : List Line) (i : Nat) (idxs : List Nat) (cts : List Str) (cnt : Nat)
      (acc : List (List Str)),
      ls.length ≤ f + i →
      List.Pairwise (· < ·) idxs →
      (∀ x ∈ idxs, x < i) →
      idxs.length = cts.length →
      (lineLoop tr name skip bsz f ls i idxs cts cnt acc).1.length = ls.length ∧
      ∀ j : Nat,
        (j ∈ idxs →
          ∃ v, (lineLoop tr name skip bsz f ls i idxs cts cnt acc).1[j]? =
            (ls[j]?).map (assignLine name v)) ∧
        (∀ l, ls[j]? = some l → j ∉ idxs → i ≤ j → eligible skip l = true →
          ∃ v, (lineLoop tr name skip bsz f ls i idxs cts cnt acc).1[j]? =
            some (assignLine name v l)) ∧
        (∀ l, ls[j]? = some l → j ∉ idxs → ¬(i ≤ j ∧ eligible skip l = true) →
          (lineLoop tr name skip bsz f ls i idxs cts cnt acc).1[j]? = some l) := by
  intro f
  induction f with
  | zero =>
    intro ls i idxs cts cnt acc hfuel hp hb hlen
    have hflush := lineFlush_spec tr name htr ls idxs cts acc hp hlen
    simp only [lineLoop]
    refine ⟨hflush.1, fun j => ⟨(hflush.2 j).1, ?_, ?_⟩⟩
    · intro l hl _ hij _
      exfalso
      rw [List.getElem?_eq_none (by omega : ls.length ≤ j)] at hl
      exact Option.noConfusion hl
    · intro l hl hnm _
      rw [(hflush.2 j).2 hnm, hl]
  | succ f ih =>
    intro ls i idxs cts cnt acc hfuel hp hb hlen
    cases hi : ls[i]? with
    | none =>
      have hli : ls.length ≤ i := List.getElem?_eq_none_iff.mp hi
      have hflush := lineFlush_spec tr name htr ls idxs cts acc hp hlen
      simp only [lineLoop, hi]
      refine ⟨hflush.1, fun j => ⟨(hflush.2 j).1, ?_, ?_⟩⟩
      · intro l hl _ hij _
        exfalso
        rw [List.getElem?_eq_none (by omega : ls.length ≤ j)] at hl
        exact Option.noConfusion hl
      · intro l hl hnm _
        rw [(hflush.2 j).2 hnm, hl]
    | some ln =>
      simp only [lineLoop, hi]
      by_cases helig : eligible skip ln = true
      · rw [if_pos helig]
        by_cases hdisp : bsz < cnt + ln.content.length
        · rw [if_pos hdisp]
          have hp1 : List.Pairwise (· < ·) (idxs ++ [i]) := by
            rw [List.pairwise_append]
            exact ⟨hp, by simp, by
              intro a ha b hbm
              simp at hbm
              subst hbm
              exact hb a ha⟩
          have hlen1 : (tr (cts ++ [ln.content])).length = (idxs ++ [i]).length := by
            rw [htr]
            simp [hlen]
          have hmem : ∀ j ∈ idxs ++ [i],
              ∃ v, (applyBatch name ls (idxs ++ [i]) (tr (cts ++ [ln.content])))[j]? =
                (ls[j]?).map (assignLine name v) := by
            intro j hj
            obtain ⟨v, hv⟩ := mem_zip_of_mem_left (idxs ++ [i]) (tr (cts ++ [ln.content]))
              hlen1.symm j hj
            exact ⟨v, applyBatch_zip_mem name (idxs ++ [i]) _ ls hp1 j v hv⟩
          have hnot : ∀ j, j ∉ idxs ++ [i] →
              (applyBatch name ls (idxs ++ [i]) (tr (cts ++ [ln.content])))[j]? = ls[j]? :=
            fun j hj => applyBatch_not_mem name (idxs ++ [i]) _ ls j hj
          have hlenB : (applyBatch name ls (idxs ++ [i]) (tr (cts ++ [ln.content]))).length =
              ls.length := applyBatch_length name _ _ ls
          have hrec := ih (applyBatch name ls (idxs ++ [i]) (tr (cts ++ [ln.content])))
            (i + 1) [] [] 0 (acc ++ [cts ++ [ln.content]]) (by omega) (by simp) (by simp) rfl
          refine ⟨by rw [hrec.1, hlenB], fun j => ⟨?_, ?_, ?_⟩⟩
          · intro hj
            have hji : j < i + 1 := by have := hb j hj; omega
            obtain ⟨v, hv⟩ := hmem j (List.mem_append_left _ hj)
            refine ⟨v, ?_⟩
            cases hl : ls[j]? with
            | none =>
              have : ls.length ≤ j := List.getElem?_eq_none_iff.mp hl
              rw [List.getElem?_eq_none (by rw [hrec.1, hlenB]; omega)]
              simp
            | some l =>
              rw [hl] at hv
              rw [(hrec.2 j).2.2 (assignLine name v l) hv (by simp) (by omega)]
              rfl
          · intro l hl hnm hij _
            by_cases hji : j = i
            · subst hji
              obtain ⟨v, hv⟩ := hmem j (by simp)
              rw [hl] at hv
              refine ⟨v, ?_⟩
              rw [(hrec.2 j).2.2 (assignLine name v l) hv (by simp) (by omega)]
            · have hj1 : j ∉ idxs ++ [i] := by
                simp only [List.mem_append, List.mem_singleton]
                rintro (h | h)
                · exact hnm h
                · exact hji h
              have hv := hnot j hj1
              rw [hl] at hv
              exact (hrec.2 j).2.1 l hv (by simp) (by omega)
                (by assumption)
          · intro l hl hnm hcond
            have hji : j ≠ i := by
              rintro rfl
              rw [hi] at hl
              cases hl
              exact hcond ⟨le_refl _, helig⟩
            have hj1 : j ∉ idxs ++ [i] := by
              simp only [List.mem_append, List.mem_singleton]
              rintro (h | h)
              · exact hnm h
              · exact hji h
            have hv := hnot j hj1
            rw [hl] at hv
            refine (hrec.2 j).2.2 l hv (by simp) ?_
            rintro ⟨hij, he⟩
            exact hcond ⟨by omega, he⟩
        · rw [if_neg hdisp]
          have hp1 : List.Pairwise (· < ·) (idxs ++ [i]) := by
            rw [List.pairwise_append]
            exact ⟨hp, by simp, by
              intro a ha b hbm
              simp at hbm
              subst hbm
              exact hb a ha⟩
          have hrec := ih ls (i + 1) (idxs ++ [i]) (cts ++ [ln.content])
            (cnt + ln.content.length) acc (by omega) hp1
            (by
              intro x hx
              rcases List.mem_append.mp hx with h | h
              · have := hb x h; omega
              · simp at h; omega)
            (by simp [hlen])
          refine ⟨hrec.1, fun j => ⟨?_, ?_, ?_⟩⟩
          · intro hj
            exact (hrec.2 j).1 (List.mem_append_left _ hj)
          · intro l hl hnm hij he
            by_cases hji : j = i
            · subst hji
              obtain ⟨v, hv⟩ := (hrec.2 j).1 (by simp)
              rw [hl] at hv
              rw [hi] at hl
              cases hl
              exact ⟨v, hv⟩
            · have hj1 : j ∉ idxs ++ [i] := by
                simp only [List.mem_append, List.mem_singleton]
                rintro (h | h)
                · exact hnm h
                · exact hji h
              exact (hrec.2 j).2.1 l hl hj1 (by omega) he
          · intro l hl hnm hcond
            have hji : j ≠ i := by
              rintro rfl
              rw [hi] at hl
              cases hl
              exact hcond ⟨le_refl _, helig⟩
            have hj1 : j ∉ idxs ++ [i] := by
              simp only [List.mem_append, List.mem_singleton]
              rintro (h | h)
              · exact hnm h
              · exact hji h
            refine (hrec.2 j).2.2 l hl hj1 ?_
            rintro ⟨hij, he⟩
            exact hcond ⟨by omega, he⟩
      · rw [if_neg helig]
        have hrec := ih ls (i + 1) idxs cts cnt acc (by omega) hp
          (fun x hx => by have := hb x hx; omega) hlen
        refine ⟨hrec.1, fun j => ⟨(hrec.2 j).1, ?_, ?_⟩⟩
        · intro l hl hnm hij he
          by_cases hji : j = i
          · subst hji
            rw [hi] at hl
            cases hl
            exact absurd he helig
          · exact (hrec.2 j).2.1 l hl hnm (by omega) he
        · intro l hl hnm hcond
          refine (hrec.2 j).2.2 l hl hnm ?_
          rintro ⟨hij, he⟩
          by_cases hji : j = i
          · subst hji
            rw [hi] at hl
            cases hl
            exact absurd he helig
          · exact hcond ⟨by omega, he⟩

/-- Setting a key in a candidates dict makes it retrievable. -/
theorem dictGet_dictSet (d : List (Str × Str)) (k v : Str) :
    dictGet (dictSet d k v) k = some v := by
  induction d with
  | nil => simp [dictSet, dictGet]
  | cons p rest ih =>
    by_cases hk : p.1 = k
    · simp [dictSet, hk, dictGet]
    · simp only [dictSet]
      rw [if_neg hk]
      unfold dictGet
      rw [List.find?_cons_of_neg _ (by simpa using hk)]
      exact ih

/-- A non-blank line skipped by the batching loop already has a
translation. -/
theorem not_eligible_translated (skip : Bool) (l : Line) (h : eligible skip l = false)
    (hb : isBlank l.content = false) : l.translated ≠ none := by
  intro hnone
  simp [eligible, hb, hnone] at h

/-- An eligible line is non-blank. -/
theorem eligible_nonblank (skip : Bool) (l : Line) (h : eligible skip l = true) :
    isBlank l.content = false := by
  by_contra hb
  simp [eligible, eq_true_of_ne_false hb] at h

/-- In the non-early-exit case, the resulting episode's lines are the
batching loop's output over the original lines. -/
theorem translateModel_lines (cfg : TrConfig) (trMeta : MetaDict → MetaDict)
    (trLines : List Str → List Str) (book : Option Book) (chapter : Option Chapter)
    (ep : Episode) (h : ¬(ep.fully_translated = true ∧ cfg.skip = true)) :
    (translateModel cfg trMeta trLines book chapter ep).episode.lines =
      (lineLoop trLines cfg.name cfg.skip cfg.bsz (ep.lines.length + 1)
        ep.lines 0 [] [] 0 []).1 ∧
    (translateModel cfg trMeta trLines book chapter ep).batches =
      (lineLoop trLines cfg.name cfg.skip cfg.bsz (ep.lines.length + 1)
        ep.lines 0 [] [] 0 []).2 := by
  constructor <;> simp [translateModel, h, metaPhase, applyEpisodeMeta]

/-- C1 (amended): after a successful `translate` call the returned
episode is fully translated and every non-blank line has a non-null
`translated`; moreover (outside the fully-translated early exit) every
line that was *eligible* — non-blank and, when `skip_translated` is
set, untranslated — receives a fresh value recorded both as
`translated` and under the backend's name in `candidates`.  (A
non-blank line skipped because it already had a translation keeps it
but need not receive a `candidates` entry, which is what refutes the
claim as stated.) -/
theorem C1_translate_lines (cfg : TrConfig) (trMeta : MetaDict → MetaDict)
    (trLines : List Str → List Str) (book : Option Book) (chapter : Option Chapter)
    (ep : Episode) (htr : ∀ l, (trLines l).length = l.length) :
    (translateModel cfg trMeta trLines book chapter ep).episode.fully_translated = true ∧
    (∀ l ∈ (translateModel cfg trMeta trLines book chapter ep).episode.lines,
      isBlank l.content = false → l.translated ≠ none) ∧
    (¬(ep.fully_translated = true ∧ cfg.skip = true) →
      ∀ (j : Nat) (l : Line), ep.lines[j]? = some l → eligible cfg.skip l = true →
        ∃ v, (translateModel cfg trMeta trLines book chapter ep).episode.lines[j]? =
            some (assignLine cfg.name v l) ∧
          (assignLine cfg.name v l).translated = some v ∧
          dictGet (assignLine cfg.name v l).candidates cfg.name = some v) := by
  by_cases hskip : ep.fully_translated = true ∧ cfg.skip = true
  · have hep : (translateModel cfg trMeta trLines book chapter ep).episode = ep := by
      simp [translateModel, hskip.1, hskip.2]
    rw [hep]
    refine ⟨hskip.1, ?_, fun h => absurd hskip h⟩
    intro l hl hb
    have := List.all_eq_true.mp hskip.1 l hl
    intro hnone
    rw [hnone] at this
    simp [hb] at this
  · obtain ⟨hlines, -⟩ := translateModel_lines cfg trMeta trLines book chapter ep hskip
    have hmain := lineLoop_assign trLines cfg.name cfg.skip cfg.bsz htr
      (ep.lines.length + 1) ep.lines 0 [] [] 0 [] (by omega) (by simp) (by simp) rfl
    have hpart3 : ∀ (j : Nat) (l : Line), ep.lines[j]? = some l →
        eligible cfg.skip l = true →
        ∃ v, (translateModel cfg trMeta trLines book chapter ep).episode.lines[j]? =
            some (assignLine cfg.name v l) ∧
          (assignLine cfg.name v l).translated = some v ∧
          dictGet (assignLine cfg.name v l).candidates cfg.name = some v := by
      intro j l hl he
      obtain ⟨v, hv⟩ := (hmain.2 j).2.1 l hl (by simp) (by omega) he
      refine ⟨v, ?_, rfl, dictGet_dictSet l.candidates cfg.name v⟩
      rw [hlines]
      exact hv
    have hpart2 : ∀ l ∈ (translateModel cfg trMeta trLines book chapter ep).episode.lines,
        isBlank l.content = false → l.translated ≠ none := by
      intro l' hl' hb'
      obtain ⟨j, hj⟩ := List.mem_iff_getElem?.mp hl'
      cases hor : ep.lines[j]? with
      | none =>
        exfalso
        have hlen : ep.lines.length ≤ j := List.getElem?_eq_none_iff.mp hor
        rw [hlines, List.getElem?_eq_none (by rw [hmain.1]; omega)] at hj
        exact Option.noConfusion hj
      | some l =>
        by_cases helig : eligible cfg.skip l = true
        · obtain ⟨v, hv, hvt, -⟩ := hpart3 j l hor helig
          rw [hv] at hj
          cases hj
          rw [hvt]
          exact fun h => Option.noConfusion h
        · have := (hmain.2 j).2.2 l hor (by simp)
            (by rintro ⟨-, he⟩; exact absurd he helig)
          rw [hlines, this] at hj
          cases hj
          exact not_eligible_translated cfg.skip l' (by simpa using helig) hb'
    refine ⟨?_, hpart2, fun _ => hpart3⟩
    rw [show (translateModel cfg trMeta trLines book chapter ep).episode.fully_translated =
      ((translateModel cfg trMeta trLines book chapter ep).episode.lines.all
        fun l => isBlank l.content || !l.translated.isNone) from rfl]
    rw [List.all_eq_true]
    intro l hl
    by_cases hb : isBlank l.content = true
    · simp [hb]
    · have := hpart2 l hl (by simpa using hb)
      simp only [Bool.or_eq_true, Bool.not_eq_true', Option.isNone_eq_false_iff]
      exact Or.inr (Option.isSome_iff_ne_none.mpr this)

/-- A one-line episode for the C1 witness. -/
def epC1w : Episode :=
  { title := str "t"
    lines := [{ content := str "b" }] }

/-- C1 witness: on a concrete episode with one untranslated line the
returned episode is fully translated. -/
theorem C1_translate_lines_witness :
    (translateModel { name := str "g" } (fun d => d) (fun l => l) none none
      epC1w).episode.fully_translated = true :=
  (C1_translate_lines { name := str "g" } (fun d => d) (fun l => l) none none epC1w
    (fun _ => rfl)).1

/-- The end-of-episode flush, on the batch list: emits the pending
batch when non-empty. -/
theorem lineFlush_batches (tr : List Str → List Str) (name : Str) (bsz : Nat)
    (ls : List Line) (idxs : List Nat) (cts : List Str) (acc : List (List Str))
    (hlen : idxs.length = cts.length) (cnt : Nat)
    (hsum : cnt = (cts.map List.length).sum) (hle : cnt ≤ bsz)
    (hcb : ∀ x ∈ cts, isBlank x = false)
    (hacc : ∀ b ∈ acc, b ≠ [] ∧ (∀ x ∈ b, isBlank x = false) ∧
      (b.map List.length).sum ≤ bsz + (b.getLast?.getD []).length) :
    (lineFlush tr name ls idxs cts acc).2.flatten = acc.flatten ++ cts ∧
    ∀ b ∈ (lineFlush tr name ls idxs cts acc).2,
      b ≠ [] ∧ (∀ x ∈ b, isBlank x = false) ∧
      (b.map List.length).sum ≤ bsz + (b.getLast?.getD []).length := by
  by_cases hne : idxs = []
  · have hcts : cts = [] := List.eq_nil_of_length_eq_zero (by rw [← hlen, hne]; rfl)
    subst hne
    subst hcts
    exact ⟨by simp [lineFlush], fun b hbm => hacc b (by simpa [lineFlush] using hbm)⟩
  · unfold lineFlush
    rw [if_pos hne]
    refine ⟨by simp, fun b hbm => ?_⟩
    rcases List.mem_append.mp hbm with h | h
    · exact hacc b h
    · simp only [List.mem_singleton] at h
      subst h
      refine ⟨?_, hcb, ?_⟩
      · intro hc
        exact hne (List.eq_nil_of_length_eq_zero (by rw [hlen, hc]; rfl))
      · rw [← hsum]
        exact Nat.le_add_right_of_le hle

/-- Invariant of the batching loop over the batches it emits: batches
concatenate to exactly the eligible line contents, and every batch is
non-empty, all-non-blank, and within the budget except for (at most)
its final line. -/
theorem lineLoop_batches (tr : List Str → List Str) (name : Str) (skip : Bool) (bsz : Nat) :
    ∀ (f : Nat) (ls : List Line) (i : Nat) (idxs : List Nat) (cts : List Str) (cnt : Nat)
      (acc : List (List Str)),
      ls.length ≤ f + i →
      (∀ x ∈ idxs, x < i) →
      idxs.length = cts.length →
      cnt = (cts.map List.length).sum →
      cnt ≤ bsz →
      (∀ x ∈ cts, isBlank x = false) →
      (∀ b ∈ acc, b ≠ [] ∧ (∀ x ∈ b, isBlank x = false) ∧
        (b.map List.length).sum ≤ bsz + (b.getLast?.getD []).length) →
      (lineLoop tr name skip bsz f ls i idxs cts cnt acc).2.flatten =
        acc.flatten ++ cts ++ ((ls.drop i).filter (eligible skip)).map Line.content ∧
      ∀ b ∈ (lineLoop tr name skip bsz f ls i idxs cts cnt acc).2,
        b ≠ [] ∧ (∀ x ∈ b, isBlank x = false) ∧
        (b.map List.length).sum ≤ bsz + (b.getLast?.getD []).length := by
  intro f
  induction f with
  | zero =>
    intro ls i idxs cts cnt acc hfuel hb hlen hsum hle hcb hacc
    have hdrop : ls.drop i = [] := List.drop_eq_nil_of_le (by omega)
    have hfl := lineFlush_batches tr name bsz ls idxs cts acc hlen cnt hsum hle hcb hacc
    simp only [lineLoop, hdrop, List.filter_nil, List.map_nil, List.append_nil]
    exact hfl
  | succ f ih =>
    intro ls i idxs cts cnt acc hfuel hb hlen hsum hle hcb hacc
    cases hi : ls[i]? with
    | none =>
      have hli : ls.length ≤ i := List.getElem?_eq_none_iff.mp hi
      have hdrop : ls.drop i = [] := List.drop_eq_nil_of_le hli
      have hfl := lineFlush_batches tr name bsz ls idxs cts acc hlen cnt hsum hle hcb hacc
      simp only [lineLoop, hi, hdrop, List.filter_nil, List.map_nil, List.append_nil]
      exact hfl
    | some ln =>
      have hdropc : ls.drop i = ln :: ls.drop (i + 1) := by
        obtain ⟨hlt, he⟩ := List.getElem?_eq_some_iff.mp hi
        rw [List.drop_eq_getElem_cons hlt, he]
      simp only [lineLoop, hi]
      by_cases helig : eligible skip ln = true
      · rw [if_pos helig]
        have hfilter : (ls.drop i).filter (eligible skip) =
            ln :: (ls.drop (i + 1)).filter (eligible skip) := by
          rw [hdropc, List.filter_cons, if_pos helig]
        by_cases hdisp : bsz < cnt + ln.content.length
        · rw [if_pos hdisp]
          have hrec := ih (applyBatch name ls (idxs ++ [i]) (tr (cts ++ [ln.content])))
            (i + 1) [] [] 0 (acc ++ [cts ++ [ln.content]])
            (by rw [applyBatch_length]; omega) (by simp) rfl rfl (by omega) (by simp)
            (by
              intro b hbm
              rcases List.mem_append.mp hbm with h | h
              · exact hacc b h
              · simp only [List.mem_singleton] at h
                subst h
                refine ⟨by simp, ?_, ?_⟩
                · intro x hx
                  rcases List.mem_append.mp hx with h | h
                  · exact hcb x h
                  · simp only [List.mem_singleton] at h
                    subst h
                    exact eligible_nonblank skip ln helig
                · rw [List.getLast?_concat]
                  simp only [List.map_append, List.sum_append, List.map_cons,
                    List.map_nil, List.sum_cons, List.sum_nil, Option.getD_some]
                  omega)
          have hdrop2 : (applyBatch name ls (idxs ++ [i])
              (tr (cts ++ [ln.content]))).drop (i + 1) = ls.drop (i + 1) := by
            apply applyBatch_drop
            intro x hx
            rcases List.mem_append.mp hx with h | h
            · have := hb x h; omega
            · simp only [List.mem_singleton] at h; omega
          rw [hdrop2] at hrec
          refine ⟨?_, hrec.2⟩
          rw [hrec.1, hfilter]
          simp [List.append_assoc]
        · rw [if_neg hdisp]
          have hrec := ih ls (i + 1) (idxs ++ [i]) (cts ++ [ln.content])
            (cnt + ln.content.length) acc (by omega)
            (by
              intro x hx
              rcases List.mem_append.mp hx with h | h
              · have := hb x h; omega
              · simp only [List.mem_singleton] at h; omega)
            (by simp [hlen]) (by simp [hsum]) (by omega)
            (by
              intro x hx
              rcases List.mem_append.mp hx with h | h
              · exact hcb x h
              · simp only [List.mem_singleton] at h
                subst h
                exact eligible_nonblank skip ln helig)
            hacc
          refine ⟨?_, hrec.2⟩
          rw [hrec.1, hfilter]
          simp [List.append_assoc]
      · rw [if_neg helig]
        have hfilter : (ls.drop i).filter (eligible skip) =
            (ls.drop (i + 1)).filter (eligible skip) := by
          rw [hdropc, List.filter_cons, if_neg (by simpa using helig)]
        have hrec := ih ls (i + 1) idxs cts cnt acc (by omega)
          (fun x hx => by have := hb x hx; omega) hlen hsum hle hcb hacc
        rw [hfilter]
        exact hrec

/-- `fully_translated` with `skip_translated` leaves nothing eligible. -/
theorem filter_eligible_nil (ep : Episode) (h1 : ep.fully_translated = true) :
    ep.lines.filter (eligible true) = [] := by
  apply List.filter_eq_nil_iff.mpr
  intro l hl he
  have := List.all_eq_true.mp h1 l hl
  rcases hb : isBlank l.content with _ | _
  · rw [eligible] at he
    rw [hb] at this
    simp at this
    simp [hb, this] at he
  · simp [eligible, hb] at he

/-- C5 (amended): the batches sent by `translate` concatenate, in
order, to exactly the eligible line contents — non-blank and (with
`skip_translated`) untranslated — so nothing pending is left unsent;
every batch is non-empty and contains only non-blank contents; and
each batch is dispatched as soon as its cumulative character count
exceeds `batch_size`, so its total exceeds the budget by at most the
length of its final line.  (The claim's "at most `batch_size`" bound is
refuted: a dispatched batch's total is strictly greater.) -/
theorem C5_batching (cfg : TrConfig) (trMeta : MetaDict → MetaDict)
    (trLines : List Str → List Str) (book : Option Book) (chapter : Option Chapter)
    (ep : Episode) :
    (translateModel cfg trMeta trLines book chapter ep).batches.flatten =
      (ep.lines.filter (eligible cfg.skip)).map Line.content ∧
    ∀ b ∈ (translateModel cfg trMeta trLines book chapter ep).batches,
      b ≠ [] ∧ (∀ x ∈ b, isBlank x = false) ∧
      (b.map List.length).sum ≤ cfg.bsz + (b.getLast?.getD []).length := by
  by_cases hskip : ep.fully_translated = true ∧ cfg.skip = true
  · have hbt : (translateModel cfg trMeta trLines book chapter ep).batches = [] := by
      simp [translateModel, hskip.1, hskip.2]
    rw [hbt]
    constructor
    · rw [hskip.2, filter_eligible_nil ep hskip.1]
      simp
    · intro b hbm
      simp at hbm
  · obtain ⟨-, hbt⟩ := translateModel_lines cfg trMeta trLines book chapter ep hskip
    have hmain := lineLoop_batches trLines cfg.name cfg.skip cfg.bsz
      (ep.lines.length + 1) ep.lines 0 [] [] 0 [] (by omega) (by simp) rfl rfl
      (by omega) (by simp) (by simp)
    rw [hbt]
    exact ⟨by simpa using hmain.1, hmain.2⟩

/-- C5 witness: on the one-line episode with `batch_size = 1` the
single batch is exactly the eligible contents, is non-empty and
non-blank, and its total is within budget plus its final line. -/
theorem C5_batching_witness :
    ([str "ab"] : List Str) ≠ [] ∧ (∀ x ∈ ([str "ab"] : List Str), isBlank x = false) ∧
    (([str "ab"] : List Str).map List.length).sum ≤
      1 + ((([str "ab"] : List Str).getLast?).getD []).length :=
  (C5_batching { name := str "g", bsz := 1 } (fun d => d) (fun l => l) none none
    epTwoChar).2 [str "ab"] (by decide)

/-- A concrete book/chapter/episode set for the C3 witness: the chapter
title translation and all book metadata are populated, and the episode
has an untranslated line. -/
def bkC3 : Book :=
  { title := str "B"
    title_translated := some (str "B1")
    description := str "D"
    description_translated := some (str "D1")
    series := none }

/-- Chapter for the C3 witness. -/
def chC3 : Chapter :=
  { title := str "C"
    title_translated := some (str "C1") }

/-- Episode for the C3 witness. -/
def epC3w : Episode :=
  { title := str "E"
    lines := [{ content := str "b" }] }

/-- C3 witness: with all book/chapter metadata populated, only the
episode payload is sent, and the book and chapter are unchanged. -/
theorem C3_metadata_caching_witness :
    (translateModel { name := str "g" } (fun d => d) (fun l => l)
        (some bkC3) (some chC3) epC3w).book = some bkC3 ∧
    (translateModel { name := str "g" } (fun d => d) (fun l => l)
        (some bkC3) (some chC3) epC3w).chapter = some chC3 ∧
    (translateModel { name := str "g" } (fun d => d) (fun l => l)
        (some bkC3) (some chC3) epC3w).sentMeta = [episodeMetaReq epC3w] :=
  (C3_metadata_caching { name := str "g" } (fun d => d) (fun l => l) bkC3 chC3 epC3w).2
    (by decide) |>.1 (by decide) (by decide)

end BookBaker

